import Mathlib

set_option maxRecDepth 1000000

/-!
Verification of the mugit core against its specification.

Shallow embedding of the relevant Rust sources (`common.rs`, `hash.rs`,
`object.rs`, `index.rs`, `add.rs`) over `List Nat` byte strings (every byte is
a `Nat` that is `< 256` in all well-formed uses) and Lean `String`s for Rust
`String`s.  Machine integers are embedded as `Nat`/`Int` with explicit
`% 2^w` truncation exactly where the source truncates.
-/

namespace Mugit

/-! ## common.rs : codec helpers -/

/-- `common.rs extract_until_null`: the prefix of `byte` up to but not
including the first `0` byte, or all of `byte` if it has no `0`. -/
def extract_until_null : List Nat → List Nat
  | [] => []
  | b :: rest => if b = 0 then [] else b :: extract_until_null rest

/-- `common.rs bytes_to_u32`: big-endian unpack; fails unless exactly 4 bytes.
(The source sums `(bytes[i] as u32) << (8*(3-i))`; for byte values `< 256`
the sum cannot overflow `u32`, so plain `Nat` addition is exact.) -/
def bytes_to_u32 (bytes : List Nat) : Option Nat :=
  if bytes.length = 4 then
    some ((bytes.getD 0 0) <<< 24 + (bytes.getD 1 0) <<< 16 +
          (bytes.getD 2 0) <<< 8 + bytes.getD 3 0)
  else none

/-- `common.rs bytes_to_u16`: big-endian unpack; fails unless exactly 2 bytes. -/
def bytes_to_u16 (bytes : List Nat) : Option Nat :=
  if bytes.length = 2 then
    some ((bytes.getD 0 0) <<< 8 + bytes.getD 1 0)
  else none

/-- `common.rs u32_to_bytes`: big-endian pack; each pushed byte is
`(val >> shift) as u8`, i.e. truncated `% 256`. -/
def u32_to_bytes (val : Nat) : List Nat :=
  [val >>> 24 % 256, val >>> 16 % 256, val >>> 8 % 256, val % 256]

/-- `common.rs u16_to_bytes`: big-endian pack with `as u8` truncation. -/
def u16_to_bytes (val : Nat) : List Nat :=
  [val >>> 8 % 256, val % 256]

/-- `common.rs byte_to_hex`: two lowercase hex characters for one byte. -/
def byte_to_hex (byte : Nat) : String :=
  let big := byte / 16
  let c1 := if big < 10 then Char.ofNat (48 + big) else Char.ofNat (97 + big - 10)
  let small := byte % 16
  let c2 := if small < 10 then Char.ofNat (48 + small) else Char.ofNat (97 + small - 10)
  String.mk [c1, c2]

/-- `common.rs bytes_to_hex`: concatenation of `byte_to_hex` over the bytes. -/
def bytes_to_hex (byte : List Nat) : String :=
  String.mk ((byte.map (fun b => (byte_to_hex b).data)).flatten)

/-- `common.rs hex_to_u8`: maps `'a'..'f'` to `10..15`; any other character
falls through to the unchecked arithmetic `hex as u8 - '0' as u8` (no
validation; the subtraction is modelled with the release-mode wrapping
semantics, which every use in the verified claims keeps away from). -/
def hex_to_u8 (hex : Char) : Nat :=
  if 97 ≤ hex.toNat ∧ hex.toNat ≤ 102 then hex.toNat - 97 + 10
  else (hex.toNat % 256 + 256 - 48 % 256) % 256

/-! ## UTF-8 (Rust `String::from_utf8` / `str::len` are byte-based) -/

/-- Standard UTF-8 encoding of one scalar value. -/
def utf8EncodeChar (c : Char) : List Nat :=
  let n := c.toNat
  if n < 128 then [n]
  else if n < 2048 then [192 + n / 64, 128 + n % 64]
  else if n < 65536 then [224 + n / 4096, 128 + n / 64 % 64, 128 + n % 64]
  else [240 + n / 262144, 128 + n / 4096 % 64, 128 + n / 64 % 64, 128 + n % 64]

/-- The UTF-8 bytes of a string (Rust `str::as_bytes`). -/
def strBytes (s : String) : List Nat :=
  (s.data.map utf8EncodeChar).flatten

/-- Rust `str::len` (byte length). -/
def strLen (s : String) : Nat :=
  (strBytes s).length

/-- Is `b` a UTF-8 continuation byte? -/
def utf8Cont (b : Nat) : Bool :=
  128 ≤ b && b ≤ 191

/-- The continuation bytes of a 2-byte UTF-8 sequence: scalar and remainder. -/
def utf8Tail2 (b : Nat) : List Nat → Option (Nat × List Nat)
  | b1 :: r => if utf8Cont b1 then some ((b - 192) * 64 + (b1 - 128), r) else none
  | [] => none

/-- The continuation bytes of a 3-byte UTF-8 sequence (with the E0/ED second
byte restrictions excluding overlong forms and surrogates). -/
def utf8Tail3 (b : Nat) : List Nat → Option (Nat × List Nat)
  | b1 :: b2 :: r =>
    let okB1 : Bool :=
      if b = 224 then 160 ≤ b1 && b1 ≤ 191
      else if b = 237 then 128 ≤ b1 && b1 ≤ 159
      else utf8Cont b1
    if okB1 && utf8Cont b2 then
      some ((b - 224) * 4096 + (b1 - 128) * 64 + (b2 - 128), r)
    else none
  | _ => none

/-- The continuation bytes of a 4-byte UTF-8 sequence (with the F0/F4 second
byte restrictions excluding overlong forms and values above `0x10FFFF`). -/
def utf8Tail4 (b : Nat) : List Nat → Option (Nat × List Nat)
  | b1 :: b2 :: b3 :: r =>
    let okB1 : Bool :=
      if b = 240 then 144 ≤ b1 && b1 ≤ 191
      else if b = 244 then 128 ≤ b1 && b1 ≤ 143
      else utf8Cont b1
    if okB1 && utf8Cont b2 && utf8Cont b3 then
      some ((b - 240) * 262144 + (b1 - 128) * 4096 + (b2 - 128) * 64 + (b3 - 128), r)
    else none
  | _ => none

/-- Fuel-driven strict UTF-8 decoding loop; each step consumes at least one
byte and one unit of fuel, so `l.length` fuel never runs out. -/
def utf8DecodeGo : Nat → List Nat → Option (List Char)
  | _, [] => some []
  | 0, _ :: _ => none
  | fuel + 1, b :: rest =>
    if b ≤ 127 then
      (utf8DecodeGo fuel rest).map (fun cs => Char.ofNat b :: cs)
    else if 194 ≤ b ∧ b ≤ 223 then
      (utf8Tail2 b rest).bind fun p =>
        (utf8DecodeGo fuel p.2).map (fun cs => Char.ofNat p.1 :: cs)
    else if 224 ≤ b ∧ b ≤ 239 then
      (utf8Tail3 b rest).bind fun p =>
        (utf8DecodeGo fuel p.2).map (fun cs => Char.ofNat p.1 :: cs)
    else if 240 ≤ b ∧ b ≤ 244 then
      (utf8Tail4 b rest).bind fun p =>
        (utf8DecodeGo fuel p.2).map (fun cs => Char.ofNat p.1 :: cs)
    else none

/-- Strict UTF-8 decoding (Rust `String::from_utf8`): rejects overlong forms,
surrogates and values above `0x10FFFF`, exactly as Rust validation does. -/
def utf8Decode (l : List Nat) : Option (List Char) :=
  utf8DecodeGo l.length l

/-! ## Decimal digits (Rust `Display` / `FromStr` for integers) -/

/-- Fuel-driven decimal digit emission (fuel is always sufficient at `n + 1`). -/
def natDigitsGo : Nat → Nat → List Char → List Char
  | 0, _, acc => acc
  | fuel + 1, n, acc =>
    let d := Char.ofNat (48 + n % 10)
    if n < 10 then d :: acc else natDigitsGo fuel (n / 10) (d :: acc)

/-- Decimal digits of a natural number (Rust `u64`/`usize` `Display`). -/
def natToChars (n : Nat) : List Char :=
  natDigitsGo (n + 1) n []

/-- Decimal rendering of an integer (Rust `i32`/`i64` `Display`). -/
def intToChars : Int → List Char
  | Int.ofNat n => natToChars n
  | Int.negSucc n => '-' :: natToChars (n + 1)

/-- Is this character an ASCII decimal digit? -/
def isDigitCh (c : Char) : Bool :=
  48 ≤ c.toNat && c.toNat ≤ 57

/-- Numeric value of a digit list, most significant first. -/
def digitsVal (cs : List Char) : Nat :=
  cs.foldl (fun acc c => acc * 10 + (c.toNat - 48)) 0

/-- Rust `usize::from_str` on a 64-bit target: optional `+`, one or more
digits, the whole string, value within `usize`. -/
def parseUSize (cs : List Char) : Option Nat :=
  let ds := if cs.head? = some '+' then cs.tail else cs
  if ds ≠ [] ∧ ds.all isDigitCh then
    if digitsVal ds < 18446744073709551616 then some (digitsVal ds) else none
  else none

/-- The optional sign of a signed Rust `FromStr`: (is-negative, digits). -/
def parseSign (cs : List Char) : Bool × List Char :=
  if cs.head? = some '+' then (false, cs.tail)
  else if cs.head? = some '-' then (true, cs.tail)
  else (false, cs)

/-- Rust `i32::from_str`: optional sign, one or more digits, whole string,
value within `i32`. -/
def parseI32 (cs : List Char) : Option Int :=
  let p := parseSign cs
  if p.2 ≠ [] ∧ p.2.all isDigitCh then
    if p.1 then
      if digitsVal p.2 ≤ 2147483648 then some (-(digitsVal p.2 : Int)) else none
    else
      if digitsVal p.2 ≤ 2147483647 then some (digitsVal p.2 : Int) else none
  else none

/-- Rust `i64::from_str`: optional sign, one or more digits, whole string,
value within `i64`. -/
def parseI64 (cs : List Char) : Option Int :=
  let p := parseSign cs
  if p.2 ≠ [] ∧ p.2.all isDigitCh then
    if p.1 then
      if digitsVal p.2 ≤ 9223372036854775808 then some (-(digitsVal p.2 : Int)) else none
    else
      if digitsVal p.2 ≤ 9223372036854775807 then some (digitsVal p.2 : Int) else none
  else none

/-! ## SHA-1 (the `crypto` crate's standard SHA-1, used by `hash.rs`) -/

/-- Rotate a 32-bit word left by `k`. -/
def rotl32 (k w : Nat) : Nat :=
  (w <<< k + w >>> (32 - k)) % 4294967296

/-- SHA-1 round constants. -/
def sha1K (i : Nat) : Nat :=
  if i < 20 then 1518500249
  else if i < 40 then 1859775393
  else if i < 60 then 2400959708
  else 3395469782

/-- SHA-1 round functions. -/
def sha1F (i b c d : Nat) : Nat :=
  if i < 20 then (b &&& c) ||| ((b ^^^ 4294967295) &&& d)
  else if i < 40 then b ^^^ c ^^^ d
  else if i < 60 then (b &&& c) ||| (b &&& d) ||| (c &&& d)
  else b ^^^ c ^^^ d

/-- SHA-1 message schedule: 80 32-bit words from one 64-byte chunk. -/
def sha1W (chunk : List Nat) : List Nat :=
  let w0 := (List.range 16).map (fun i =>
    (chunk.getD (4 * i) 0) <<< 24 + (chunk.getD (4 * i + 1) 0) <<< 16 +
    (chunk.getD (4 * i + 2) 0) <<< 8 + chunk.getD (4 * i + 3) 0)
  (List.range 64).foldl (fun ws i =>
    ws ++ [rotl32 1 ((ws.getD (i + 13) 0) ^^^ (ws.getD (i + 8) 0) ^^^
                     (ws.getD (i + 2) 0) ^^^ (ws.getD i 0))]) w0

/-- One SHA-1 compression step over a 64-byte chunk. -/
def sha1Compress (h : List Nat) (chunk : List Nat) : List Nat :=
  let ws := sha1W chunk
  let s := (List.range 80).foldl
    (fun (st : Nat × Nat × Nat × Nat × Nat) i =>
      let a := st.1; let b := st.2.1; let c := st.2.2.1
      let d := st.2.2.2.1; let e := st.2.2.2.2
      let temp := (rotl32 5 a + sha1F i b c d + e + sha1K i + ws.getD i 0) % 4294967296
      (temp, a, rotl32 30 b, c, d))
    (h.getD 0 0, h.getD 1 0, h.getD 2 0, h.getD 3 0, h.getD 4 0)
  [(h.getD 0 0 + s.1) % 4294967296, (h.getD 1 0 + s.2.1) % 4294967296,
   (h.getD 2 0 + s.2.2.1) % 4294967296, (h.getD 3 0 + s.2.2.2.1) % 4294967296,
   (h.getD 4 0 + s.2.2.2.2) % 4294967296]

/-- SHA-1 padding: `0x80`, zeros, then the 64-bit big-endian bit length. -/
def sha1Pad (msg : List Nat) : List Nat :=
  let l := msg.length
  let z := (64 + 56 - (l + 1) % 64) % 64
  msg ++ 128 :: (List.replicate z 0 ++ (List.range 8).map (fun i => (8 * l) >>> (8 * (7 - i)) % 256))

/-- Fold the compression function over the 64-byte chunks (fuel-driven; the
fuel passed by `sha1` always exceeds the chunk count). -/
def sha1Blocks : Nat → List Nat → List Nat → List Nat
  | _, h, [] => h
  | 0, h, _ => h
  | fuel + 1, h, l => sha1Blocks fuel (sha1Compress h (l.take 64)) (l.drop 64)

/-- The SHA-1 digest (20 bytes) of a byte string. -/
def sha1 (msg : List Nat) : List Nat :=
  let hs := sha1Blocks (msg.length + 9)
    [1732584193, 4023233417, 2562383102, 271733878, 3285377520] (sha1Pad msg)
  (hs.map (fun h => [h >>> 24 % 256, h >>> 16 % 256, h >>> 8 % 256, h % 256])).flatten

/-! ## hash.rs -/

/-- `hash.rs Hash`: a 20-byte digest value (`Hash([u8; 20])`). -/
structure Hash where
  bytes : List Nat
deriving DecidableEq, Repr

/-- `Hash::from`: fails unless the slice has exactly 20 bytes. -/
def Hash.«from» (bytes : List Nat) : Option Hash :=
  if bytes.length ≠ 20 then none else some ⟨bytes⟩

/-- `hash.rs calc_sha1_bytes`. -/
def calc_sha1_bytes (byte : List Nat) : Hash :=
  ⟨sha1 byte⟩

/-- `Hash::string`: lowercase hex rendering. -/
def Hash.string (h : Hash) : String :=
  bytes_to_hex h.bytes

/-- `common.rs hex_to_bytes`: rejects odd byte length, then converts pairs of
characters through the unchecked `hex_to_u8`.  The source indexes characters
with `chars().nth(i).unwrap()` while iterating to the *byte* length; the
`getD` default models the out-of-range case (a Rust panic), which is
unreachable for ASCII input.  The combination `hex_to_u8(..)*16 + hex_to_u8(..)`
is `u8` arithmetic in the source; the `% 256` reproduces its wrapping. -/
def hex_to_bytes (hex_str : String) : Option (List Nat) :=
  let len := strLen hex_str
  if len % 2 = 1 then none
  else
    some ((List.range (len / 2)).map (fun k =>
      (hex_to_u8 (hex_str.data.getD (2 * k) (Char.ofNat 0)) * 16 +
       hex_to_u8 (hex_str.data.getD (2 * k + 1) (Char.ofNat 0))) % 256))

/-- `Hash::from_string`: fails if the byte length is not 40, then goes through
`hex_to_bytes` and `Hash::from`. -/
def Hash.from_string (string : String) : Option Hash :=
  if strLen string ≠ 40 then none
  else hex_to_bytes string >>= Hash.«from»

/-! ## object.rs : object kinds and Blob -/

/-- `object.rs ObjType`. -/
inductive ObjType
  | Blob
  | Tree
  | Commit
deriving DecidableEq, Repr

/-- `object.rs Blob`. -/
structure Blob where
  obj_type : ObjType
  len : Nat
  data : List Nat
  payload : List Nat
  hash : Hash
deriving DecidableEq, Repr

/-- `Blob::from_bytes`: checks only the `"blob"` magic, reads the decimal
length up to the NUL, and takes *all* remaining bytes as the data — the
parsed `len` is never compared with the body size.  (`header_len` uses
`len_string.len()`, the byte length of the decoded digits.) -/
def Blob.from_bytes (bytes : List Nat) : Option Blob :=
  if ¬ (strBytes "blob").isPrefixOf bytes then none
  else
    let lenBytes := extract_until_null (bytes.drop 5)
    (utf8Decode lenBytes).bind fun lenChars =>
    (parseUSize lenChars).bind fun len =>
    let header_len := 5 + lenBytes.length + 1
    let body := bytes.drop header_len
    some { obj_type := ObjType.Blob, len := len, data := body,
           payload := bytes, hash := calc_sha1_bytes bytes }

/-! ## object.rs : Tree -/

/-- `object.rs FileType`. -/
inductive FileType
  | Directory
  | File
  | SymbolicLink
  | Submodule
deriving DecidableEq, Repr

/-- `FileType::from_code_bytes` (note: matches by *prefix* of the code). -/
def FileType.from_code_bytes (code : List Nat) : Except String FileType :=
  if (strBytes "40").isPrefixOf code then .ok .Directory
  else if (strBytes "100").isPrefixOf code then .ok .File
  else if (strBytes "120").isPrefixOf code then .ok .SymbolicLink
  else if (strBytes "160").isPrefixOf code then .ok .Submodule
  else .error "invalid type"

/-- `FileType::to_code_string`. -/
def FileType.to_code_string : FileType → String
  | .Directory => "40"
  | .File => "100"
  | .SymbolicLink => "120"
  | .Submodule => "160"

/-- `object.rs FilePermission`. -/
inductive FilePermission
  | Other
  | Executable
  | UnExecutable
deriving DecidableEq, Repr

/-- `FilePermission::from_code_bytes`. -/
def FilePermission.from_code_bytes (code : List Nat) : Except String FilePermission :=
  if (strBytes "755").isPrefixOf code then .ok .Executable
  else if (strBytes "644").isPrefixOf code then .ok .UnExecutable
  else if (strBytes "000").isPrefixOf code then .ok .Other
  else .error "invalid type"

/-- `FilePermission::to_code_string`. -/
def FilePermission.to_code_string : FilePermission → String
  | .Other => "000"
  | .Executable => "755"
  | .UnExecutable => "644"

/-- `object.rs TreeNode`. -/
structure TreeNode where
  file_type : FileType
  permission : FilePermission
  file_name : String
  hash : Hash
deriving DecidableEq, Repr

/-- `TreeNode::parse`: reads `<type><perm> <name>\0<20 hash bytes>` and
returns the node together with the number of bytes consumed.  The Rust
`&bytes[offset..offset+20]` slice panics when fewer than 20 bytes remain;
here `take` yields a short list and `Hash::from` fails instead (that case is
unreachable in the verified statements).  `file_name.len()` is the byte
length of the extracted name, i.e. `nameBytes.length`. -/
def TreeNode.parse (bytes : List Nat) : Except String (TreeNode × Nat) := do
  let file_type ← FileType.from_code_bytes bytes
  let offset := strLen file_type.to_code_string
  let pos := bytes.drop offset
  let permission ← FilePermission.from_code_bytes pos
  let offset := offset + strLen permission.to_code_string + 1
  let pos := bytes.drop offset
  let nameBytes := extract_until_null pos
  let file_name ← match utf8Decode nameBytes with
    | some cs => Except.ok (String.mk cs)
    | none => Except.error "invalid utf8"
  let offset := offset + nameBytes.length + 1
  let hash ← match Hash.«from» ((bytes.drop offset).take 20) with
    | some h => Except.ok h
    | none => Except.error "invalid hash value"
  let offset := offset + 20
  Except.ok ({ file_type := file_type, permission := permission,
               file_name := file_name, hash := hash }, offset)

/-- `object.rs Tree`. -/
structure Tree where
  obj_type : ObjType
  nodes : List TreeNode
  payload : List Nat
  hash : Option Hash
deriving DecidableEq, Repr

/-- The `while offset < len` node loop of `Tree::from_bytes`.  Fuel-driven;
each iteration consumes `n ≥ 1` bytes (`n = 0` aborts), so `len + 1` fuel is
always sufficient and the fuel-exhausted branch is unreachable. -/
def treeNodesLoop (body : List Nat) : Nat → Nat → Nat → List TreeNode → Option (List TreeNode)
  | 0, _, _, _ => none
  | fuel + 1, offset, len, nodes =>
    if offset < len then
      match TreeNode.parse (body.drop offset) with
      | .error _ => none
      | .ok (node, n) =>
        if n = 0 then none
        else treeNodesLoop body fuel (offset + n) len (nodes ++ [node])
    else some nodes

/-- `Tree::from_bytes`: parses the header and the nodes, then computes the
recorded hash as `Hash::from(byte)` applied to the *entire input* — which
demands that the whole serialization be exactly 20 bytes long. -/
def Tree.from_bytes (byte : List Nat) : Option Tree :=
  if ¬ (strBytes "tree").isPrefixOf byte then none
  else
    let lenBytes := extract_until_null (byte.drop 5)
    (utf8Decode lenBytes).bind fun lenChars =>
    (parseUSize lenChars).bind fun len =>
    let header_len := 5 + lenBytes.length + 1
    let body := byte.drop header_len
    (treeNodesLoop body (len + 1) 0 len []).bind fun nodes =>
    (Hash.«from» byte).bind fun hash =>
    some { obj_type := ObjType.Tree, nodes := nodes, payload := byte, hash := some hash }

/-! ## object.rs : CommitUser -/

/-- `object.rs CommitterType`. -/
inductive CommitterType
  | Author
  | Committer
deriving DecidableEq, Repr

/-- `CommitterType::from_code_bytes` (prefix match, as in the source). -/
def CommitterType.from_code_bytes (code : List Nat) : Except String CommitterType :=
  if (strBytes "author").isPrefixOf code then .ok .Author
  else if (strBytes "committer").isPrefixOf code then .ok .Committer
  else .error "invalid type"

/-- `CommitterType::to_code_string`. -/
def CommitterType.to_code_string : CommitterType → String
  | .Author => "author"
  | .Committer => "committer"

/-- `object.rs CommitUser`.  The chrono `DateTime<FixedOffset>` is embedded as
the pair of its unix seconds (`timestamp()`) and its fixed offset in seconds
(`offset().local_minus_utc()`); every commit object stores whole seconds, so
this pair is the full state. -/
structure CommitUser where
  committer_type : CommitterType
  name : String
  address : String
  timestamp : Int
  tz_offset : Int
deriving DecidableEq, Repr

/-- `Default for CommitUser`: author `""`/`""` at epoch, offset 0. -/
def CommitUser.default : CommitUser :=
  { committer_type := .Author, name := "", address := "", timestamp := 0, tz_offset := 0 }

/-- Rust `format!("{:<02}", n)` on an integer: the `0` flag makes the padding
sign-aware and right-aligned (overriding the `<`), so this behaves exactly
like `{:02}` — a single non-negative digit gets one leading zero; negative
numbers already have width ≥ 2 and are left unchanged. -/
def fmtZeroPad2 (n : Int) : String :=
  let s := intToChars n
  if s.length < 2 then String.mk ('0' :: s) else String.mk s

/-- `CommitUser::to_string`: `"<role> <name> <<email>> <unix-seconds> <tz>"`,
where the timezone part is `+`/`-` followed by the `{:<02}`-formatted signed
hour and minute of the offset, or `"0000"` when the offset is zero.
`Int.tdiv`/`Int.tmod` reproduce Rust's truncating `/` and `%` on `i32`. -/
def CommitUser.to_string (u : CommitUser) : String :=
  let timestamp := u.timestamp
  let timezone := u.tz_offset
  let timezone_hour := Int.tdiv timezone 3600
  let timezone_min := Int.tdiv (Int.tmod timezone 3600) 60
  let timezone_str :=
    if 0 < timezone then "+" ++ fmtZeroPad2 timezone_hour ++ fmtZeroPad2 timezone_min
    else if timezone < 0 then "-" ++ fmtZeroPad2 timezone_hour ++ fmtZeroPad2 timezone_min
    else "0000"
  u.committer_type.to_code_string ++ " " ++ u.name ++ " <" ++ u.address ++ "> " ++
    String.mk (intToChars timestamp) ++ " " ++ timezone_str

/-- `CommitUser::to_bytes`. -/
def CommitUser.to_bytes (u : CommitUser) : List Nat :=
  strBytes u.to_string

/-- `object.rs calc_time_offset`: `None` unless the byte length is 4 or 5;
`Some 0` if there is no leading sign; otherwise `±(HH*3600 + MM*60)` from the
byte slices `[1..3]` and `[3..5]` parsed as `i32`. -/
def calc_time_offset (time : String) : Option Int :=
  if strLen time < 4 ∨ 5 < strLen time then none
  else
    match time.data with
    | [] => some 0
    | c :: rest =>
      if c ≠ '+' ∧ c ≠ '-' then some 0
      else
        (parseI32 (rest.take 2)).bind fun hour =>
        (parseI32 ((rest.drop 2).take 2)).bind fun min =>
        let value := hour * 3600 + min * 60
        if c = '+' then some value
        else if c = '-' then some (-value)
        else none

/-- `\w` of the `regex` crate, restricted to ASCII.  (The only strings this is
applied to where the overall match can succeed are the ASCII role words: a
longer unicode word-run would only shift the mandatory following space, and
the role then fails `CommitterType::from_code_bytes`, giving `None` exactly
as the model does.) -/
def isWordCh (c : Char) : Bool :=
  c.isAlphanum || c == '_'

/-- The email local-part class `[a-zA-Z0-9.!#$%&'*+/=?^_`{|}~-]` (the last
five code points are spelled numerically: 39 apostrophe, 96 backtick,
123/124/125 braces and pipe). -/
def isLocalCh (c : Char) : Bool :=
  c.isAlphanum || ".!#$%&*+/=?^_~-".data.contains c ||
  c.toNat == 39 || c.toNat == 96 || c.toNat == 123 || c.toNat == 124 || c.toNat == 125

/-- The email domain class `[a-zA-Z0-9-]`. -/
def isDomCh (c : Char) : Bool :=
  c.isAlphanum || c == '-'

/-- Greedy `(?:\.[a-zA-Z0-9-]+)*`: consume as many `.<run>` groups as
possible; returns the remainder.  Fuel-driven (each group consumes ≥ 2
characters, so the caller's `cs.length` fuel suffices). -/
def domTailLoop : Nat → List Char → List Char
  | 0, cs => cs
  | fuel + 1, cs =>
    match cs with
    | '.' :: rest =>
      let run := rest.takeWhile isDomCh
      if run = [] then cs else domTailLoop fuel (rest.drop run.length)
    | _ => cs

/-- The deterministic part of the `CommitUser` regex after the greedy name:
`" <email> digits offset"`.  Every quantifier here is greedy with a
distinguishable follow-character, so no backtracking can produce a different
match; trailing characters after the 4 offset digits are ignored because the
regex has no `$` anchor.  Returns (address, timestamp digits, offset capture). -/
def commitUserTail (cs : List Char) : Option (String × List Char × String) :=
  match cs with
  | ' ' :: '<' :: rest =>
    let loc := rest.takeWhile isLocalCh
    if loc = [] then none else
    match rest.drop loc.length with
    | '@' :: rest2 =>
      let d1 := rest2.takeWhile isDomCh
      if d1 = [] then none else
      let rest3 := domTailLoop rest2.length (rest2.drop d1.length)
      let address := String.mk (loc ++ '@' :: rest2.take (rest2.length - rest3.length))
      match rest3 with
      | '>' :: ' ' :: rest4 =>
        let digits := rest4.takeWhile isDigitCh
        if digits = [] then none else
        match rest4.drop digits.length with
        | ' ' :: rest5 =>
          let offsetCap : Option (List Char) :=
            match rest5 with
            | c :: r =>
              if (c == '+' || c == '-') && 4 ≤ r.length && (r.take 4).all isDigitCh then
                some (c :: r.take 4)
              else if 4 ≤ rest5.length ∧ (rest5.take 4).all isDigitCh then
                some (rest5.take 4)
              else none
            | [] => none
          offsetCap.map fun oc => (address, digits, String.mk oc)
        | _ => none
      | _ => none
    | _ => none
  | _ => none

/-- `CommitUser::from_bytes`: UTF-8 decode, then the anchored regex
`^(\w*) (.*) <EMAIL> (\d+) ([+-]?\d{4})`.  The greedy `(.*)` is realised by
taking the *largest* newline-free name prefix whose remainder matches the
deterministic tail; the role is the maximal word-run followed by a space.
The parsed instant is `FixedOffset::east(offset).timestamp(secs, 0)`,
i.e. the (seconds, offset) pair. -/
def CommitUser.from_bytes (bytes : List Nat) : Option CommitUser :=
  (utf8Decode bytes).bind fun cs =>
  let roleRun := cs.takeWhile isWordCh
  match cs.drop roleRun.length with
  | ' ' :: afterRole =>
    match (List.range (afterRole.length + 1)).reverse.find? (fun i =>
        (commitUserTail (afterRole.drop i)).isSome &&
        !((afterRole.take i).contains '\n')) with
    | none => none
    | some i =>
      match commitUserTail (afterRole.drop i) with
      | none => none
      | some (address, tsDigits, offsetCap) =>
        match CommitterType.from_code_bytes (strBytes (String.mk roleRun)) with
        | .error _ => none
        | .ok committer_type =>
          (parseI64 tsDigits).bind fun ts =>
          (calc_time_offset offsetCap).bind fun off =>
          some { committer_type := committer_type, name := String.mk (afterRole.take i),
                 address := address, timestamp := ts, tz_offset := off }
  | _ => none

/-! ## object.rs : Commit -/

/-- `object.rs Commit`. -/
structure Commit where
  obj_type : ObjType
  tree : Hash
  parents : List Hash
  author : CommitUser
  committer : CommitUser
  commit_message : String
deriving DecidableEq, Repr

/-- Rust `str::split("\n")`: splits on every newline, keeping empty segments
(including a trailing one). -/
def splitLines : List Char → List (List Char)
  | [] => [[]]
  | c :: rest =>
    if c = '\n' then [] :: splitLines rest
    else
      match splitLines rest with
      | l :: ls => (c :: l) :: ls
      | [] => [[c]]

/-- Rust `Vec::join` on string slices. -/
def joinLines (sep : List Char) : List (List Char) → List Char
  | [] => []
  | [l] => l
  | l :: ls => l ++ sep ++ joinLines sep ls

/-- Rust `Vec::join("\n")` on `Vec<String>`. -/
def strJoin (sep : String) : List String → String
  | [] => ""
  | [s] => s
  | s :: rest => s ++ sep ++ strJoin sep rest

/-- One iteration body of the header loop of `Commit::from_bytes` (the
`tree`/`parent`/`author`/`committer` prefix dispatch; the Rust `&line[k..]`
byte slices coincide with dropping `k` characters because the matched
prefixes are ASCII). -/
def commitLineStep (c : Commit) (line : List Char) : Option Commit :=
  if "tree".data.isPrefixOf line then
    (Hash.from_string (String.mk (line.drop 5))).map fun h => { c with tree := h }
  else if "parent".data.isPrefixOf line then
    (Hash.from_string (String.mk (line.drop 7))).map fun h => { c with parents := c.parents ++ [h] }
  else if "author".data.isPrefixOf line then
    (CommitUser.from_bytes (strBytes (String.mk line))).map fun u => { c with author := u }
  else if "committer".data.isPrefixOf line then
    (CommitUser.from_bytes (strBytes (String.mk line))).map fun u => { c with committer := u }
  else some c

/-- The header loop of `Commit::from_bytes`: processes lines in order,
incrementing `idx` after each, and stops *after* the first empty line. -/
def commitLinesLoop : List (List Char) → Commit → Nat → Option (Commit × Nat)
  | [], c, idx => some (c, idx)
  | line :: rest, c, idx =>
    (commitLineStep c line).bind fun c' =>
    if line.length = 0 then some (c', idx + 1)
    else commitLinesLoop rest c' (idx + 1)

/-- `Commit::from_bytes`: magic check, skip `commit <len>\0` (the length is
never validated), decode the body, run the header loop, and join the
remaining lines back with `"\n"` as the message. -/
def Commit.from_bytes (bytes : List Nat) : Option Commit :=
  if ¬ (strBytes "commit").isPrefixOf bytes then none
  else
    let offset := 7
    let lenBytes := extract_until_null (bytes.drop offset)
    (utf8Decode lenBytes).bind fun _lenChars =>
    let offset_header := offset + lenBytes.length + 1
    (utf8Decode (bytes.drop offset_header)).bind fun bodyChars =>
    let lines := splitLines bodyChars
    let c0 : Commit :=
      { obj_type := ObjType.Commit, tree := ⟨List.replicate 20 0⟩, parents := [],
        author := CommitUser.default, committer := CommitUser.default, commit_message := "" }
    (commitLinesLoop lines c0 0).bind fun ci =>
    some { ci.1 with commit_message := String.mk (joinLines ['\n'] (lines.drop ci.2)) }

/-- `Commit::to_bytes`: the parent-less body has *no* trailing newline after
the message; the parent-bearing body appends one. -/
def Commit.to_bytes (c : Commit) : List Nat :=
  let body : String :=
    if c.parents.length = 0 then
      "tree " ++ c.tree.string ++ "\n" ++ c.author.to_string ++ "\n" ++
        c.committer.to_string ++ "\n\n" ++ c.commit_message
    else
      let parents_concat := strJoin "\n" (c.parents.map fun x => "parent " ++ x.string)
      "tree " ++ c.tree.string ++ "\n" ++ parents_concat ++ "\n" ++ c.author.to_string ++ "\n" ++
        c.committer.to_string ++ "\n\n" ++ c.commit_message ++ "\n"
  strBytes ("commit " ++ String.mk (natToChars (strLen body)) ++ "\x00" ++ body)

/-! ## Ordered association lists (the `BTreeMap` of index.rs)

Keys are `PathBuf`s.  The entries list is kept sorted by a total
lexicographic byte order; `BTreeMap` itself sorts `PathBuf`s by path
*components*, but for plain repository-relative keys the two orders differ
only in which of two incomparable-by-content keys comes first, and none of
the verified statements depends on the choice (round-tripping and the
entry-count invariant are order-agnostic). -/

/-- Generic strict lexicographic order on lists, from a strict order on
elements given as a `Bool` comparison. -/
def lexLtBy (lt : α → α → Bool) : List α → List α → Bool
  | _, [] => false
  | [], _ :: _ => true
  | a :: as, b :: bs => if lt a b then true else if lt b a then false else lexLtBy lt as bs

/-- Strict byte-wise lexicographic order on byte strings. -/
def lexLtN : List Nat → List Nat → Bool :=
  lexLtBy (fun a b => decide (a < b))

/-! ## index.rs -/

/-- `index.rs IndexEntry`.  `file_name : List Nat` is the `PathBuf` as its
UTF-8 bytes (`PathBuf::from_str` keeps the string verbatim and
`to_str().unwrap().as_bytes()` returns exactly these bytes). -/
structure IndexEntry where
  ctime : Nat
  ctime_nano : Nat
  mtime : Nat
  mtime_nano : Nat
  dev : Nat
  inode : Nat
  mode : Nat
  uid : Nat
  gid : Nat
  size : Nat
  hash : Hash
  flags : Nat
  file_name : List Nat
deriving DecidableEq, Repr

/-- `IndexEntry::from`: ten big-endian `u32`s, the 20 hash bytes, a
big-endian `u16`, then the NUL-terminated path; the consumed length is
`(pos/8 + 1) * 8` with `pos = 62 + path byte length`.  (The Rust fixed-width
slices panic when too few bytes remain; here the short `take` makes the
unpack helpers fail instead — unreachable in the verified statements.) -/
def IndexEntry.«from» (bytes : List Nat) : Option (IndexEntry × Nat) :=
  (bytes_to_u32 ((bytes.drop 0).take 4)).bind fun ctime =>
  (bytes_to_u32 ((bytes.drop 4).take 4)).bind fun ctime_nano =>
  (bytes_to_u32 ((bytes.drop 8).take 4)).bind fun mtime =>
  (bytes_to_u32 ((bytes.drop 12).take 4)).bind fun mtime_nano =>
  (bytes_to_u32 ((bytes.drop 16).take 4)).bind fun dev =>
  (bytes_to_u32 ((bytes.drop 20).take 4)).bind fun inode =>
  (bytes_to_u32 ((bytes.drop 24).take 4)).bind fun mode =>
  (bytes_to_u32 ((bytes.drop 28).take 4)).bind fun uid =>
  (bytes_to_u32 ((bytes.drop 32).take 4)).bind fun gid =>
  (bytes_to_u32 ((bytes.drop 36).take 4)).bind fun size =>
  (Hash.«from» ((bytes.drop 40).take 20)).bind fun hash =>
  (bytes_to_u16 ((bytes.drop 60).take 2)).bind fun flags =>
  let nameBytes := extract_until_null (bytes.drop 62)
  (utf8Decode nameBytes).bind fun _file_name_str =>
  let pos := 62 + nameBytes.length
  let len := (pos / 8 + 1) * 8
  some ({ ctime := ctime, ctime_nano := ctime_nano, mtime := mtime, mtime_nano := mtime_nano,
          dev := dev, inode := inode, mode := mode, uid := uid, gid := gid, size := size,
          hash := hash, flags := flags, file_name := nameBytes }, len)

/-- `IndexEntry::to_bytes`: the fixed 62-byte prefix, the path bytes, then
1..8 zero bytes of padding — 8 when the unpadded length is already a multiple
of 8, else up to the next multiple. -/
def IndexEntry.to_bytes (e : IndexEntry) : List Nat :=
  let ret :=
    u32_to_bytes e.ctime ++ u32_to_bytes e.ctime_nano ++ u32_to_bytes e.mtime ++
    u32_to_bytes e.mtime_nano ++ u32_to_bytes e.dev ++ u32_to_bytes e.inode ++
    u32_to_bytes e.mode ++ u32_to_bytes e.uid ++ u32_to_bytes e.gid ++
    u32_to_bytes e.size ++ e.hash.bytes ++ u16_to_bytes e.flags ++ e.file_name
  let zero_pad_len := if ret.length % 8 = 0 then 8 else 8 - ret.length % 8
  ret ++ List.replicate zero_pad_len 0

/-- `BTreeMap::insert` on the key-sorted association list. -/
def mapInsert (k : List Nat) (v : IndexEntry) : List (List Nat × IndexEntry) → List (List Nat × IndexEntry)
  | [] => [(k, v)]
  | (k1, v1) :: t =>
    if lexLtN k k1 then (k, v) :: (k1, v1) :: t
    else if k = k1 then (k, v) :: t
    else (k1, v1) :: mapInsert k v t

/-- `BTreeMap::remove` on the key-sorted association list. -/
def mapRemove (k : List Nat) : List (List Nat × IndexEntry) → List (List Nat × IndexEntry)
  | [] => []
  | (k1, v1) :: t => if k = k1 then t else (k1, v1) :: mapRemove k t

/-- `index.rs Index` (version, entry count, the `BTreeMap` of entries). -/
structure Index where
  version : Nat
  entry_num : Nat
  entries : List (List Nat × IndexEntry)
deriving DecidableEq, Repr

/-- `Index::new`. -/
def Index.new : Index :=
  { version := 2, entry_num := 0, entries := [] }

/-- The `while offset < len && entries.len() < entry_num` loop of
`Index::from`.  Fuel-driven; every parsed entry consumes
`(pos/8 + 1)*8 ≥ 64` bytes, so the remaining byte count strictly decreases
and the `bytes.length` fuel passed by `Index::from` never runs out before
the loop would stop by itself. -/
def indexEntriesLoop : Nat → List Nat → Nat → List (List Nat × IndexEntry) →
    Option (List (List Nat × IndexEntry))
  | 0, remaining, entry_num, acc =>
      if remaining ≠ [] ∧ acc.length < entry_num then none else some acc
  | fuel + 1, remaining, entry_num, acc =>
    if remaining ≠ [] ∧ acc.length < entry_num then
      (IndexEntry.«from» remaining).bind fun en =>
      indexEntriesLoop fuel (remaining.drop en.2) entry_num (mapInsert en.1.file_name en.1 acc)
    else some acc

/-- `Index::from`: `"DIRC"` magic, version and entry count as big-endian
`u32`s, then entries until the input is exhausted or `entry_num` entries have
been read.  The header `entry_num` is stored as given — it is never
reconciled with the number of entries actually parsed. -/
def Index.«from» (bytes : List Nat) : Option Index :=
  if ¬ (strBytes "DIRC").isPrefixOf bytes then none
  else
    (bytes_to_u32 ((bytes.drop 4).take 4)).bind fun version =>
    (bytes_to_u32 ((bytes.drop 8).take 4)).bind fun entry_num =>
    (indexEntriesLoop bytes.length (bytes.drop 12) entry_num []).bind fun entries =>
    some { version := version, entry_num := entry_num, entries := entries }

/-- `Index::to_bytes`: `"DIRC"`, version, entry count, then the entries in
ascending key order. -/
def Index.to_bytes (i : Index) : List Nat :=
  strBytes "DIRC" ++ u32_to_bytes i.version ++ u32_to_bytes i.entry_num ++
    (i.entries.map fun e => e.2.to_bytes).flatten

/-- `Index::update_entry_num`: `entry_num = entries.len() as u32` (the cast
truncates modulo `2^32`). -/
def Index.update_entry_num (i : Index) : Index :=
  { i with entry_num := i.entries.length % 4294967296 }

/-- `Index::add_entry`, given the `IndexEntry` that `IndexEntry::from_file`
built from the file's stat data (the file-system read itself is I/O and
outside the model; a failing stat leaves the index unchanged).  Inserts under
`ie.file_name` and refreshes `entry_num`. -/
def Index.add_entry (i : Index) (ie : IndexEntry) : Index :=
  Index.update_entry_num { i with entries := mapInsert ie.file_name ie i.entries }

/-- `Index::delete_entry`: removes the key (a no-op when absent) and
refreshes `entry_num`. -/
def Index.delete_entry (i : Index) (path_from_root : List Nat) : Index :=
  Index.update_entry_num { i with entries := mapRemove path_from_root i.entries }

/-! ## add.rs : the diff walker's initial deleted set

Paths are `PathBuf`s compared and prefix-tested component-wise; a path is
embedded as its list of components (`List String`), with components ordered
by their scalar sequences (equivalently their UTF-8 bytes, the `OsStr`
order). -/

/-- Component order: lexicographic on the character scalars. -/
def pathCompLt (a b : String) : Bool :=
  lexLtBy (fun x y => decide (x < y)) (a.data.map Char.toNat) (b.data.map Char.toNat)

/-- `PathBuf` order: lexicographic on components. -/
def pathLtB : List String → List String → Bool :=
  lexLtBy pathCompLt

/-- `slice::binary_search` exactly as in Rust's core: probe
`left + (right-left)/2`, move `left` past smaller elements, `right` onto
larger ones, return `Ok(mid)` on equality, `Err(left)` when the window
closes.  Fuel-driven (the window shrinks every step, so `len + 1` fuel never
runs out). -/
def rustBinarySearch : Nat → List (List String) → List String → Nat → Nat → Sum Nat Nat
  | 0, _, _, left, _ => Sum.inr left
  | fuel + 1, ks, target, left, right =>
    if left < right then
      let mid := left + (right - left) / 2
      let k := ks.getD mid []
      if pathLtB k target then rustBinarySearch fuel ks target (mid + 1) right
      else if pathLtB target k then rustBinarySearch fuel ks target left mid
      else Sum.inl mid
    else Sum.inr left

/-- `add.rs get_all_sub_nodes`: binary-search `root` in the sorted key list,
then linearly collect keys from that position while they still have `root`
as a path prefix (`Path::starts_with` is component-wise).  The collected
`BTreeSet` is represented by the collected list itself, which is already in
ascending order. -/
def get_all_sub_nodes (root : List String) (all_nodes : List (List String)) : List (List String) :=
  let start :=
    match rustBinarySearch (all_nodes.length + 1) all_nodes root 0 all_nodes.length with
    | Sum.inl n => n
    | Sum.inr n => n
  (all_nodes.drop start).takeWhile fun node => root.isPrefixOf node

/-- The `delete_nodes` initialisation of `DiffParser::from`: with an index,
`get_all_sub_nodes` over the index's ascending key list; with no index, the
empty set. -/
def diffInitialDeleted (index : Option (List (List String))) (search_root : List String) :
    List (List String) :=
  match index with
  | some keys => get_all_sub_nodes search_root keys
  | none => []

/-! ## Well-formedness predicates and the mutation operations of the claims -/

/-- A machine-representable `IndexEntry`: `u32`/`u16` fields in range, a
20-byte hash, and a NUL-free, valid-UTF-8 path. -/
def IndexEntry.WF (e : IndexEntry) : Prop :=
  e.ctime < 4294967296 ∧ e.ctime_nano < 4294967296 ∧ e.mtime < 4294967296 ∧
  e.mtime_nano < 4294967296 ∧ e.dev < 4294967296 ∧ e.inode < 4294967296 ∧
  e.mode < 4294967296 ∧ e.uid < 4294967296 ∧ e.gid < 4294967296 ∧
  e.size < 4294967296 ∧ e.hash.bytes.length = 20 ∧ e.flags < 65536 ∧
  (∀ b ∈ e.file_name, b ≠ 0) ∧ (utf8Decode e.file_name).isSome = true

/-- A well-formed version-2 `Index`: the stored count equals the number of
entries, the entries fit in a `u32` count, keys are strictly ascending, every
pair is keyed by its entry's own path, and every entry is well-formed. -/
def Index.WF (I : Index) : Prop :=
  I.version = 2 ∧ I.entry_num = I.entries.length ∧ I.entries.length < 4294967296 ∧
  List.Pairwise (fun a b => lexLtN a.1 b.1 = true) I.entries ∧
  ∀ p ∈ I.entries, p.1 = p.2.file_name ∧ p.2.WF

/-- One index mutation: `add_entry` (with the entry already built from the
file's stat data) or `delete_entry`. -/
inductive IndexOp
  | add (ie : IndexEntry)
  | del (path : List Nat)

/-- Apply one mutation to an index. -/
def Index.applyOp (i : Index) : IndexOp → Index
  | .add ie => i.add_entry ie
  | .del p => i.delete_entry p

/-! ## Concrete example values used by the closed statements -/

/-- A 20-byte tree hash for the commit example. -/
def exTreeHash : Hash :=
  ⟨[0, 1, 2, 3, 4, 5, 6, 7, 8, 9, 10, 11, 12, 13, 14, 15, 16, 17, 18, 19]⟩

/-- A 20-byte parent hash for the commit example. -/
def exParentHash : Hash :=
  ⟨List.replicate 20 255⟩

/-- An author with a `+0900` offset. -/
def exAuthor : CommitUser :=
  ⟨.Author, "a", "a@b.c", 5, 32400⟩

/-- The same identity as committer. -/
def exCommitter : CommitUser :=
  ⟨.Committer, "a", "a@b.c", 5, 32400⟩

/-- A well-formed one-parent commit with message `"m"`. -/
def exCommit : Commit :=
  ⟨.Commit, exTreeHash, [exParentHash], exAuthor, exCommitter, "m"⟩

/-- A committer whose offset is `-09:00` (`-32400` seconds). -/
def exNegUser : CommitUser :=
  ⟨.Committer, "a", "a@b.c", 0, -32400⟩

/-- Forty `':'` characters: length 40 but not hexadecimal. -/
def exColons : String :=
  String.mk (List.replicate 40 ':')

/-- The 75-byte tree serialization from the repository's own
`test_tree_from_bytes` (`"tree 67\0"` followed by two well-formed nodes). -/
def repoTreeBytes : List Nat :=
  [116, 114, 101, 101, 32, 54, 55, 0,
   49, 48, 48, 54, 52, 52, 32, 104, 101, 108, 108, 111, 46, 116, 120, 116, 0,
   59, 24, 229, 18, 219, 167, 158, 76, 131, 0,
   221, 8, 174, 179, 127, 142, 114, 139, 141, 173, 52, 48, 48, 48, 48, 32, 115, 117, 98, 0,
   104, 255, 217, 241, 253, 68, 123, 131, 242, 105, 99, 203, 80, 21, 85, 50, 176, 1, 8, 241]

/-- A concrete well-formed index entry for path `a.txt`. -/
def exEntry : IndexEntry :=
  ⟨1, 2, 3, 4, 5, 6, 33188, 501, 20, 3, ⟨List.replicate 20 7⟩, 5, strBytes "a.txt"⟩

/-- The same entry keyed by `b.txt`. -/
def exEntryB : IndexEntry :=
  { exEntry with file_name := strBytes "b.txt" }

/-- A two-entry well-formed index. -/
def exIndex : Index :=
  ⟨2, 2, [(strBytes "a.txt", exEntry), (strBytes "b.txt", exEntryB)]⟩

/-- A DIRC image whose header claims two entries but whose body encodes one. -/
def exOverclaimBytes : List Nat :=
  strBytes "DIRC" ++ u32_to_bytes 2 ++ u32_to_bytes 2 ++ exEntry.to_bytes

/-- A sorted list of component paths for the diff-walker example. -/
def exKeys : List (List String) :=
  [["a.txt"], ["src", "a.txt"], ["src", "b.txt"], ["z.txt"]]

/-! # Helper lemmas -/

theorem option_bind_const_none {α β : Type} (x : Option α) :
    (x.bind fun _ => (none : Option β)) = none := by
  cases x <;> rfl

theorem isPrefixOf_append_self {α : Type} [BEq α] [LawfulBEq α] :
    ∀ (l r : List α), l.isPrefixOf (l ++ r) = true
  | [], _ => by simp [List.isPrefixOf]
  | a :: t, r => by simp [List.isPrefixOf, isPrefixOf_append_self t r]

theorem extract_until_null_append :
    ∀ (l r : List Nat), (∀ b ∈ l, b ≠ 0) → extract_until_null (l ++ 0 :: r) = l
  | [], _, _ => by simp [extract_until_null]
  | b :: t, r, h => by
    have hb : b ≠ 0 := h b (by simp)
    simp [extract_until_null, hb,
      extract_until_null_append t r (fun x hx => h x (by simp [hx]))]

theorem bytes_to_u32_u32_to_bytes {v : Nat} (h : v < 4294967296) :
    bytes_to_u32 (u32_to_bytes v) = some v := by
  simp [bytes_to_u32, u32_to_bytes, List.getD, Nat.shiftRight_eq_div_pow, Nat.shiftLeft_eq]
  omega

theorem bytes_to_u16_u16_to_bytes {v : Nat} (h : v < 65536) :
    bytes_to_u16 (u16_to_bytes v) = some v := by
  simp [bytes_to_u16, u16_to_bytes, List.getD, Nat.shiftRight_eq_div_pow, Nat.shiftLeft_eq]
  omega

theorem utf8DecodeGo_ascii : ∀ (fuel : Nat) (l : List Nat), l.length ≤ fuel →
    (∀ b ∈ l, b ≤ 127) → utf8DecodeGo fuel l = some (l.map fun b => Char.ofNat b)
  | f, [], _, _ => by cases f <;> rfl
  | 0, _ :: _, h, _ => absurd h (by simp)
  | fuel + 1, b :: t, h, ha => by
    have hb : b ≤ 127 := ha b (by simp)
    rw [utf8DecodeGo, if_pos hb,
      utf8DecodeGo_ascii fuel t (by simpa using h) (fun x hx => ha x (by simp [hx]))]
    rfl

theorem utf8Decode_ascii (l : List Nat) (ha : ∀ b ∈ l, b ≤ 127) :
    utf8Decode l = some (l.map fun b => Char.ofNat b) :=
  utf8DecodeGo_ascii l.length l le_rfl ha

theorem parseUSize_digits (c : Char) (t : List Char)
    (hall : ∀ x ∈ c :: t, isDigitCh x = true)
    (hv : digitsVal (c :: t) < 18446744073709551616) :
    parseUSize (c :: t) = some (digitsVal (c :: t)) := by
  have hc : isDigitCh c = true := hall c (by simp)
  have hcne : (c :: t).head? ≠ some '+' := by
    simp only [List.head?]
    intro hcc
    rw [Option.some_inj.mp hcc] at hc
    simp [isDigitCh] at hc
  unfold parseUSize
  rw [if_neg hcne]
  rw [if_pos ⟨by simp, by simpa [List.all_eq_true] using hall⟩, if_pos hv]

theorem strBytes_ascii : ∀ (ds : List Char), (∀ c ∈ ds, c.toNat < 128) →
    strBytes (String.mk ds) = ds.map Char.toNat
  | [], _ => rfl
  | c :: t, h => by
    have hc : c.toNat < 128 := h c (by simp)
    have ht := strBytes_ascii t (fun x hx => h x (by simp [hx]))
    simp [strBytes, utf8EncodeChar, hc] at ht ⊢
    exact ht

/-! # C9 : index entry serialization length and padding -/

/-- C9: for every `IndexEntry` (whose hash has its 20 bytes), `to_bytes` has
total length `(pos/8 + 1)*8` for `pos = 62 +` the path byte length; the
length is a multiple of 8 and everything after `pos` is between one and
eight NUL padding bytes. -/
theorem c9_index_entry_padding (e : IndexEntry) (h20 : e.hash.bytes.length = 20) :
    e.to_bytes.length = ((62 + e.file_name.length) / 8 + 1) * 8 ∧
    e.to_bytes.length % 8 = 0 ∧
    e.to_bytes.drop (62 + e.file_name.length) =
      List.replicate (e.to_bytes.length - (62 + e.file_name.length)) 0 ∧
    1 ≤ e.to_bytes.length - (62 + e.file_name.length) ∧
    e.to_bytes.length - (62 + e.file_name.length) ≤ 8 := by
  have hretlen :
      (u32_to_bytes e.ctime ++ u32_to_bytes e.ctime_nano ++ u32_to_bytes e.mtime ++
       u32_to_bytes e.mtime_nano ++ u32_to_bytes e.dev ++ u32_to_bytes e.inode ++
       u32_to_bytes e.mode ++ u32_to_bytes e.uid ++ u32_to_bytes e.gid ++
       u32_to_bytes e.size ++ e.hash.bytes ++ u16_to_bytes e.flags ++ e.file_name).length
      = 62 + e.file_name.length := by
    simp [u32_to_bytes, u16_to_bytes, h20]
    omega
  unfold IndexEntry.to_bytes
  rw [List.drop_left' hretlen, List.length_append, List.length_replicate, hretlen]
  by_cases h8 : (62 + e.file_name.length) % 8 = 0
  · rw [if_pos h8]
    refine ⟨by omega, by omega, ?_, by omega, by omega⟩
    congr 1
    omega
  · rw [if_neg h8]
    refine ⟨by omega, by omega, ?_, by omega, by omega⟩
    congr 1
    omega

/-- C9 witness: the padding law at the concrete `a.txt` entry. -/
theorem c9_witness :
    exEntry.to_bytes.length = ((62 + exEntry.file_name.length) / 8 + 1) * 8 ∧
    exEntry.to_bytes.length % 8 = 0 ∧
    exEntry.to_bytes.drop (62 + exEntry.file_name.length) =
      List.replicate (exEntry.to_bytes.length - (62 + exEntry.file_name.length)) 0 ∧
    1 ≤ exEntry.to_bytes.length - (62 + exEntry.file_name.length) ∧
    exEntry.to_bytes.length - (62 + exEntry.file_name.length) ≤ 8 :=
  c9_index_entry_padding exEntry (by decide)

/-! # C2 : Tree::from_bytes demands a 20-byte input -/

/-- C2 (code bug): `Tree::from_bytes` ends with `Hash::from(byte)` applied to
the whole input, which fails unless the entire serialization is exactly 20
bytes; hence every byte string of any other length is rejected, and in
particular every valid tree serialization is. -/
theorem c2_tree_from_bytes_rejects (b : List Nat) (h : b.length ≠ 20) :
    Tree.from_bytes b = none := by
  have hh : Hash.«from» b = none := by simp [Hash.«from», h]
  unfold Tree.from_bytes
  split
  next => rfl
  next => simp only [hh, Option.none_bind, option_bind_const_none]

/-- C2 witness: the repository's own 75-byte test vector (expected by
`test_tree_from_bytes` to parse successfully) is rejected. -/
theorem c2_witness :
    repoTreeBytes.length ≠ 20 ∧ Tree.from_bytes repoTreeBytes = none :=
  ⟨by decide, c2_tree_from_bytes_rejects repoTreeBytes (by decide)⟩

/-! # C5 : Hash::from_string validates only the length -/

/-- C5 counterexample: the 40-character string of `':'`s contains no lowercase
hex digit, yet `Hash::from_string` does not fail on it. -/
theorem c5_counterexample : Hash.from_string exColons ≠ none := by decide

/-- C5 as amended: `Hash::from_string` returns `None` for every string whose
byte length is not 40, but performs no hexadecimal validation — a 40-character
non-hex string (forty `':'`s) still yields a hash, its characters passed
through the unchecked `hex_to_u8` arithmetic. -/
theorem c5_hash_from_string_length_only :
    (∀ s : String, strLen s ≠ 40 → Hash.from_string s = none) ∧
    (Hash.from_string exColons).isSome = true := by
  refine ⟨fun s h => ?_, by decide⟩
  simp [Hash.from_string, h]

/-- C5 witness: the length check at a concrete non-40-byte string. -/
theorem c5_witness : Hash.from_string "abc" = none :=
  c5_hash_from_string_length_only.1 "abc" (by decide)

/-! # C6 : CommitUser::to_string breaks on negative offsets -/

/-- C6 (code bug): at offset `-09:00` the rendered timezone is `--900` — the
sign character followed by the *signed* hour rendering — rather than the
specified `-0900`. -/
theorem c6_negative_offset_malformed :
    exNegUser.to_string = "committer a <a@b.c> 0 --900" ∧
    exNegUser.to_string ≠ "committer a <a@b.c> 0 -0900" := by
  constructor
  · decide
  · decide

/-! # C1 : Commit round-trip gains a newline when parents are present -/

/-- C1 (code bug): for a well-formed commit with one parent and message
`"m"`, parsing the serialization yields the commit with message `"m\n"` — the
multi-parent serialization appends a newline after the message and the parser
keeps it — so `from_bytes (to_bytes C) ≠ Some C`. -/
theorem c1_commit_round_trip_adds_newline :
    Commit.from_bytes (Commit.to_bytes exCommit) =
      some { exCommit with commit_message := "m\n" } ∧
    Commit.from_bytes (Commit.to_bytes exCommit) ≠ some exCommit := by
  constructor
  · decide
  · decide

/-! # C10 : Index::from keeps an inflated header count -/

/-- C10: an index image whose header says 2 entries but which encodes only
one parses successfully, and the resulting `Index` keeps `entry_num = 2`
while holding a single entry. -/
theorem c10_entry_num_not_reconciled :
    Index.«from» exOverclaimBytes =
      some { version := 2, entry_num := 2, entries := [(strBytes "a.txt", exEntry)] } ∧
    (2 : Nat) ≠ [(strBytes "a.txt", exEntry)].length := by
  constructor
  · decide
  · decide

/-! # C4 : Blob::from_bytes never checks the header length -/

/-- C4 counterexample: `"blob 5\0ab"` declares 5 bytes but carries 2; the
claim says this must be a parse error, yet `from_bytes` succeeds. -/
theorem c4_counterexample :
    (Blob.from_bytes (strBytes "blob 5" ++ [0] ++ strBytes "ab")).isSome = true := by
  decide

/-- C4 as amended: for every header digit string and every payload —
whatever their relationship — `Blob::from_bytes` succeeds, storing the header
value as `len` and all post-NUL bytes as `data`; the header length is never
compared with the body size. -/
theorem c4_blob_length_never_checked (ds : List Char) (payload : List Nat)
    (hne : ds ≠ []) (hds : ∀ c ∈ ds, isDigitCh c = true)
    (hv : digitsVal ds < 18446744073709551616) :
    Blob.from_bytes (strBytes "blob " ++ ds.map Char.toNat ++ 0 :: payload) =
      some { obj_type := ObjType.Blob, len := digitsVal ds, data := payload,
             payload := strBytes "blob " ++ ds.map Char.toNat ++ 0 :: payload,
             hash := calc_sha1_bytes (strBytes "blob " ++ ds.map Char.toNat ++ 0 :: payload) } := by
  have hd48 : ∀ c ∈ ds, 48 ≤ c.toNat ∧ c.toNat ≤ 57 := by
    intro c hc
    simpa [isDigitCh] using hds c hc
  have hpre : (strBytes "blob").isPrefixOf
      (strBytes "blob " ++ ds.map Char.toNat ++ 0 :: payload) = true := by
    have h1 : strBytes "blob " ++ ds.map Char.toNat ++ 0 :: payload =
        strBytes "blob" ++ ([32] ++ (ds.map Char.toNat ++ 0 :: payload)) := by
      simp [strBytes, utf8EncodeChar]
    rw [h1]
    exact isPrefixOf_append_self _ _
  have hdrop5 : (strBytes "blob " ++ ds.map Char.toNat ++ 0 :: payload).drop 5 =
      ds.map Char.toNat ++ 0 :: payload := by
    rw [List.append_assoc, List.drop_left' (show (strBytes "blob ").length = 5 from rfl)]
  have hnz : ∀ b ∈ ds.map Char.toNat, b ≠ 0 := by
    intro b hb
    obtain ⟨c, hc, rfl⟩ := List.mem_map.mp hb
    have := (hd48 c hc).1
    omega
  have hextract := extract_until_null_append (ds.map Char.toNat) payload hnz
  have hdec : utf8Decode (ds.map Char.toNat) = some ds := by
    have h127 : ∀ b ∈ ds.map Char.toNat, b ≤ 127 := by
      intro b hb
      obtain ⟨c, hc, rfl⟩ := List.mem_map.mp hb
      have := (hd48 c hc).2
      omega
    rw [utf8Decode_ascii _ h127]
    simp [List.map_map, Function.comp_def, Char.ofNat_toNat]
  have hparse : parseUSize ds = some (digitsVal ds) := by
    cases ds with
    | nil => exact absurd rfl hne
    | cons c t => exact parseUSize_digits c t hds hv
  have hdropH : (strBytes "blob " ++ ds.map Char.toNat ++ 0 :: payload).drop
      (5 + (ds.map Char.toNat).length + 1) = payload := by
    have hsplit : strBytes "blob " ++ ds.map Char.toNat ++ 0 :: payload =
        (strBytes "blob " ++ ds.map Char.toNat ++ [0]) ++ payload := by simp
    have h5 : (strBytes "blob ").length = 5 := rfl
    rw [hsplit, List.drop_left' (by simp [List.length_append, h5]; omega)]
  unfold Blob.from_bytes
  rw [if_neg (not_not_intro hpre)]
  simp only [hdrop5, hextract]
  rw [hdec]
  simp only [Option.some_bind]
  rw [hparse]
  simp only [Option.some_bind]
  rw [hdropH]

/-- C4 witness: the amended statement at the concrete header `"5"` with the
two-byte payload `"ab"`. -/
theorem c4_witness :
    Blob.from_bytes (strBytes "blob " ++ ['5'].map Char.toNat ++ 0 :: strBytes "ab") =
      some { obj_type := ObjType.Blob, len := digitsVal ['5'], data := strBytes "ab",
             payload := strBytes "blob " ++ ['5'].map Char.toNat ++ 0 :: strBytes "ab",
             hash := calc_sha1_bytes (strBytes "blob " ++ ['5'].map Char.toNat ++ 0 :: strBytes "ab") } :=
  c4_blob_length_never_checked ['5'] (strBytes "ab") (by decide) (by decide) (by decide)

/-! # C7 : the diff walker's initial deleted set

Order-theoretic facts about the generic lexicographic comparison, the
component path order, and the faithful binary search, leading to: the
initial `deleted` set is exactly the set of index keys with `search_root`
as a path prefix. -/

theorem lt_irrefl_of_asymm {α : Type} {lt : α → α → Bool}
    (hasym : ∀ x y, lt x y = true → lt y x = false) (x : α) : lt x x = false := by
  cases h : lt x x with
  | false => rfl
  | true =>
    have h2 := hasym x x h
    rw [h] at h2
    exact h2

theorem lexLtBy_nil_right {α : Type} {lt : α → α → Bool} :
    ∀ (l : List α), lexLtBy lt l [] = false
  | [] => rfl
  | _ :: _ => rfl

theorem lexLtBy_irrefl {α : Type} {lt : α → α → Bool}
    (hasym : ∀ x y, lt x y = true → lt y x = false) :
    ∀ l, lexLtBy lt l l = false
  | [] => rfl
  | a :: t => by
    simp [lexLtBy, lt_irrefl_of_asymm hasym a, lexLtBy_irrefl hasym t]

theorem lexLtBy_asymm {α : Type} {lt : α → α → Bool}
    (hasym : ∀ x y, lt x y = true → lt y x = false) :
    ∀ a b, lexLtBy lt a b = true → lexLtBy lt b a = false
  | a, [], h => by rw [lexLtBy_nil_right] at h; exact absurd h (by simp)
  | [], b :: bs, _ => lexLtBy_nil_right _
  | a :: as, b :: bs, h => by
    simp only [lexLtBy] at h ⊢
    cases h1 : lt a b with
    | true =>
      have h2 : lt b a = false := hasym a b h1
      simp [h1, h2]
    | false =>
      cases h2 : lt b a with
      | true => simp [h1, h2] at h
      | false =>
        simp [h1, h2] at h ⊢
        exact lexLtBy_asymm hasym as bs h

theorem lexLtBy_trans {α : Type} {lt : α → α → Bool}
    (hasym : ∀ x y, lt x y = true → lt y x = false)
    (htrans : ∀ x y z, lt x y = true → lt y z = true → lt x z = true)
    (htotal : ∀ x y, lt x y = false → lt y x = false → x = y) :
    ∀ a b c, lexLtBy lt a b = true → lexLtBy lt b c = true → lexLtBy lt a c = true
  | a, b, [], _, h2 => by rw [lexLtBy_nil_right] at h2; exact absurd h2 (by simp)
  | a, [], c :: cs, h1, _ => by rw [lexLtBy_nil_right] at h1; exact absurd h1 (by simp)
  | [], b :: bs, c :: cs, _, _ => rfl
  | a :: as, b :: bs, c :: cs, h1, h2 => by
    simp only [lexLtBy] at h1 h2 ⊢
    cases hab : lt a b with
    | true =>
      cases hbc : lt b c with
      | true => simp [htrans a b c hab hbc]
      | false =>
        cases hcb : lt c b with
        | true => simp [hab, hbc, hcb] at h2
        | false =>
          have hbceq : b = c := htotal b c hbc hcb
          subst hbceq
          simp [hab]
    | false =>
      cases hba : lt b a with
      | true => simp [hab, hba] at h1
      | false =>
        have habeq : a = b := htotal a b hab hba
        subst habeq
        simp [hab] at h1 ⊢
        cases hac : lt a c with
        | true => simp
        | false =>
          cases hca : lt c a with
          | true => simp [hac, hca] at h2
          | false =>
            simp [hac, hca] at h2 ⊢
            exact lexLtBy_trans hasym htrans htotal as bs cs h1 h2

theorem lexLtBy_total {α : Type} {lt : α → α → Bool}
    (htotal : ∀ x y, lt x y = false → lt y x = false → x = y) :
    ∀ a b, lexLtBy lt a b = false → lexLtBy lt b a = false → a = b
  | [], [], _, _ => rfl
  | [], _ :: _, h1, _ => by simp [lexLtBy] at h1
  | _ :: _, [], _, h2 => by simp [lexLtBy] at h2
  | a :: as, b :: bs, h1, h2 => by
    simp only [lexLtBy] at h1 h2
    cases hab : lt a b with
    | true => simp [hab] at h1
    | false =>
      cases hba : lt b a with
      | true => simp [hba] at h2
      | false =>
        have he : a = b := htotal a b hab hba
        subst he
        simp [hab] at h1 h2
        rw [lexLtBy_total htotal as bs h1 h2]

theorem lexLtBy_append_not_lt {α : Type} {lt : α → α → Bool}
    (hasym : ∀ x y, lt x y = true → lt y x = false) :
    ∀ (t e : List α), lexLtBy lt (t ++ e) t = false
  | [], _ => lexLtBy_nil_right _
  | c :: t, e => by
    simp [lexLtBy, lt_irrefl_of_asymm hasym c, lexLtBy_append_not_lt hasym t e]

theorem lexLtBy_sandwich {α : Type} {lt : α → α → Bool}
    (hasym : ∀ x y, lt x y = true → lt y x = false)
    (htotal : ∀ x y, lt x y = false → lt y x = false → x = y) :
    ∀ (t x e : List α), lexLtBy lt x t = false → (∀ e2, x ≠ t ++ e2) →
      lexLtBy lt (t ++ e) x = true
  | [], x, _, _, hnext => absurd rfl (hnext x)
  | c :: t, [], _, hxt, _ => by simp [lexLtBy] at hxt
  | c :: t, x0 :: xs, e, hxt, hnext => by
    simp only [lexLtBy] at hxt
    cases hx0c : lt x0 c with
    | true => simp [hx0c] at hxt
    | false =>
      cases hcx0 : lt c x0 with
      | true => simp [lexLtBy, hcx0]
      | false =>
        have he : x0 = c := htotal x0 c hx0c hcx0
        subst he
        simp [hx0c] at hxt
        have hnext2 : ∀ e2, xs ≠ t ++ e2 := fun e2 h => hnext e2 (by simp [h])
        simp [lexLtBy, lt_irrefl_of_asymm hasym x0,
          lexLtBy_sandwich hasym htotal t xs e hxt hnext2]

theorem char_eq_of_toNat_eq {c d : Char} (h : c.toNat = d.toNat) : c = d :=
  Char.ext (UInt32.eq_of_val_eq (Fin.ext h))

theorem map_toNat_inj : ∀ (l1 l2 : List Char), l1.map Char.toNat = l2.map Char.toNat → l1 = l2
  | [], [], _ => rfl
  | [], _ :: _, h => by simp at h
  | _ :: _, [], h => by simp at h
  | a :: t1, b :: t2, h => by
    simp only [List.map_cons, List.cons.injEq] at h
    rw [char_eq_of_toNat_eq h.1, map_toNat_inj t1 t2 h.2]

theorem natLt_asymm : ∀ x y : Nat, decide (x < y) = true → decide (y < x) = false := by
  intro x y h
  simp at h ⊢
  omega

theorem natLt_trans : ∀ x y z : Nat, decide (x < y) = true → decide (y < z) = true →
    decide (x < z) = true := by
  intro x y z h1 h2
  simp at h1 h2 ⊢
  omega

theorem natLt_total : ∀ x y : Nat, decide (x < y) = false → decide (y < x) = false → x = y := by
  intro x y h1 h2
  simp at h1 h2
  omega

theorem pathCompLt_asymm (a b : String) (h : pathCompLt a b = true) : pathCompLt b a = false :=
  lexLtBy_asymm natLt_asymm _ _ h

theorem pathCompLt_trans (a b c : String) (h1 : pathCompLt a b = true)
    (h2 : pathCompLt b c = true) : pathCompLt a c = true :=
  lexLtBy_trans natLt_asymm natLt_trans natLt_total _ _ _ h1 h2

theorem pathCompLt_total (a b : String) (h1 : pathCompLt a b = false)
    (h2 : pathCompLt b a = false) : a = b :=
  String.ext (map_toNat_inj _ _ (lexLtBy_total natLt_total _ _ h1 h2))

theorem pathLtB_asymm {a b : List String} (h : pathLtB a b = true) : pathLtB b a = false :=
  lexLtBy_asymm pathCompLt_asymm _ _ h

theorem pathLtB_trans {a b c : List String} (h1 : pathLtB a b = true)
    (h2 : pathLtB b c = true) : pathLtB a c = true :=
  lexLtBy_trans pathCompLt_asymm pathCompLt_trans pathCompLt_total _ _ _ h1 h2

theorem pathLtB_total {a b : List String} (h1 : pathLtB a b = false)
    (h2 : pathLtB b a = false) : a = b :=
  lexLtBy_total pathCompLt_total _ _ h1 h2

theorem pathLtB_append {t e : List String} : pathLtB (t ++ e) t = false :=
  lexLtBy_append_not_lt pathCompLt_asymm _ _

theorem pathLtB_sandwich {t x e : List String} (hxt : pathLtB x t = false)
    (hnext : ∀ e2, x ≠ t ++ e2) : pathLtB (t ++ e) x = true :=
  lexLtBy_sandwich pathCompLt_asymm pathCompLt_total _ _ _ hxt hnext

theorem pairwise_pathLtB_getD {ks : List (List String)}
    (hs : List.Pairwise (fun a b => pathLtB a b = true) ks)
    {i j : Nat} (hij : i < j) (hj : j < ks.length) :
    pathLtB (ks.getD i []) (ks.getD j []) = true := by
  rw [List.getD_eq_getElem _ _ (lt_trans hij hj), List.getD_eq_getElem _ _ hj]
  exact List.pairwise_iff_getElem.mp hs i j (lt_trans hij hj) hj hij

theorem rustBinarySearch_spec :
    ∀ (fuel : Nat) (ks : List (List String)) (target : List String) (left right : Nat),
      List.Pairwise (fun a b => pathLtB a b = true) ks →
      right ≤ ks.length → right - left < fuel →
      (∀ i, i < left → pathLtB (ks.getD i []) target = true) →
      (∀ i, right ≤ i → i < ks.length → pathLtB target (ks.getD i []) = true) →
      (match rustBinarySearch fuel ks target left right with
       | Sum.inl m => m < ks.length ∧ ks.getD m [] = target
       | Sum.inr p =>
           (∀ i, i < p → pathLtB (ks.getD i []) target = true) ∧
           (∀ i, p ≤ i → i < ks.length → pathLtB target (ks.getD i []) = true))
  | 0, _, _, _, _, _, _, hf, _, _ => absurd hf (by omega)
  | fuel + 1, ks, target, left, right, hs, hr, hf, hlow, hhigh => by
    rw [rustBinarySearch]
    by_cases hlr : left < right
    · rw [if_pos hlr]
      simp only []
      set mid := left + (right - left) / 2 with hmid
      have hmidr : mid < right := by omega
      have hmidks : mid < ks.length := lt_of_lt_of_le hmidr hr
      by_cases h1 : pathLtB (ks.getD mid []) target = true
      · rw [if_pos h1]
        refine rustBinarySearch_spec fuel ks target (mid + 1) right hs hr (by omega) ?_ hhigh
        intro i hi
        rcases Nat.lt_or_ge i mid with hlt | hge
        · exact pathLtB_trans (pairwise_pathLtB_getD hs hlt hmidks) h1
        · have : i = mid := by omega
          rw [this]
          exact h1
      · rw [if_neg h1]
        by_cases h2 : pathLtB target (ks.getD mid []) = true
        · rw [if_pos h2]
          refine rustBinarySearch_spec fuel ks target left mid hs (by omega) (by omega) hlow ?_
          intro i hge hi
          rcases Nat.lt_or_ge mid i with hlt | hge2
          · exact pathLtB_trans h2 (pairwise_pathLtB_getD hs hlt hi)
          · have : i = mid := by omega
            rw [this]
            exact h2
        · rw [if_neg h2]
          exact ⟨hmidks, pathLtB_total (by simpa using h1) (by simpa using h2)⟩
    · rw [if_neg hlr]
      exact ⟨hlow, fun i hi hil => hhigh i (by omega) hil⟩

theorem pathLtB_irrefl (l : List String) : pathLtB l l = false :=
  lexLtBy_irrefl pathCompLt_asymm l

theorem takeWhile_eq_filter_sorted (root : List String) :
    ∀ (l : List (List String)), List.Pairwise (fun a b => pathLtB a b = true) l →
      (∀ x ∈ l, pathLtB x root = false) →
      l.takeWhile (fun n => root.isPrefixOf n) = l.filter (fun n => root.isPrefixOf n)
  | [], _, _ => rfl
  | a :: t, hp, hge => by
    obtain ⟨hpa1, hpt⟩ := List.pairwise_cons.mp hp
    cases hpa : root.isPrefixOf a with
    | true =>
      have ht := takeWhile_eq_filter_sorted root t hpt (fun x hx => hge x (by simp [hx]))
      simp [List.takeWhile_cons, List.filter_cons, hpa, ht]
    | false =>
      have hfil : t.filter (fun n => root.isPrefixOf n) = [] := by
        rw [List.filter_eq_nil_iff]
        intro y hy hpy
        have hpy2 : root.isPrefixOf y = true := by simpa using hpy
        obtain ⟨e, he⟩ := List.isPrefixOf_iff_prefix.mp hpy2
        have hxa : pathLtB a root = false := hge a (by simp)
        have hnext : ∀ e2, a ≠ root ++ e2 := by
          intro e2 heq
          rw [heq] at hpa
          rw [List.isPrefixOf_iff_prefix.mpr ⟨e2, rfl⟩] at hpa
          exact absurd hpa (by simp)
        have hya : pathLtB y a = true := by
          rw [← he]
          exact pathLtB_sandwich hxa hnext
        have hay : pathLtB a y = true := hpa1 y hy
        have hcontra := pathLtB_asymm hay
        rw [hya] at hcontra
        exact absurd hcontra (by simp)
      simp [List.takeWhile_cons, List.filter_cons, hpa, hfil]

theorem not_pref_of_lt {root x : List String} (h : pathLtB x root = true) :
    root.isPrefixOf x = false := by
  cases hp : root.isPrefixOf x with
  | false => rfl
  | true =>
    obtain ⟨e, he⟩ := List.isPrefixOf_iff_prefix.mp hp
    rw [← he, pathLtB_append] at h
    exact absurd h (by simp)

theorem scan_eq_filter (root : List String) (keys : List (List String)) (s : Nat)
    (hs : List.Pairwise (fun a b => pathLtB a b = true) keys)
    (hA : ∀ i, i < s → i < keys.length → pathLtB (keys.getD i []) root = true)
    (hB : ∀ x ∈ keys.drop s, pathLtB x root = false) :
    (keys.drop s).takeWhile (fun node => root.isPrefixOf node) =
      keys.filter (fun k => root.isPrefixOf k) := by
  rw [takeWhile_eq_filter_sorted root (keys.drop s) (hs.drop) hB]
  have h2 : (keys.take s).filter (fun k => root.isPrefixOf k) = [] := by
    rw [List.filter_eq_nil_iff]
    intro x hx hpx
    obtain ⟨i, hi, hxi⟩ := List.mem_iff_getElem.mp hx
    have hilen : i < keys.length := by
      have h3 := hi
      rw [List.length_take] at h3
      omega
    have his : i < s := by
      have h3 := hi
      rw [List.length_take] at h3
      omega
    have hxeq : keys.getD i [] = x := by
      rw [List.getD_eq_getElem keys [] hilen, ← hxi, List.getElem_take]
    have hlt : pathLtB x root = true := by
      rw [← hxeq]
      exact hA i his hilen
    have hnp := not_pref_of_lt hlt
    have hpx2 : root.isPrefixOf x = true := by simpa using hpx
    rw [hnp] at hpx2
    exact absurd hpx2 (by simp)
  calc (keys.drop s).filter (fun n => root.isPrefixOf n)
      = (keys.take s).filter (fun k => root.isPrefixOf k) ++
        (keys.drop s).filter (fun k => root.isPrefixOf k) := by rw [h2]; rfl
    _ = keys.filter (fun k => root.isPrefixOf k) := by
        rw [← List.filter_append, List.take_append_drop]

/-- C7: for every strictly ascending list of index keys and every
`search_root`, the diff walker's initial deleted set — binary search for the
lower bound, then a linear scan until the prefix ends — is exactly the list
of keys having `search_root` as a (component-wise) path prefix; and with no
index the deleted set is empty. -/
theorem c7_diff_initial_deleted (keys : List (List String)) (search_root : List String)
    (hs : List.Pairwise (fun a b => pathLtB a b = true) keys) :
    diffInitialDeleted (some keys) search_root =
      keys.filter (fun k => search_root.isPrefixOf k) ∧
    diffInitialDeleted none search_root = [] := by
  refine ⟨?_, rfl⟩
  show get_all_sub_nodes search_root keys = _
  have hspec := rustBinarySearch_spec (keys.length + 1) keys search_root 0 keys.length hs
    le_rfl (by omega) (fun i hi => absurd hi (Nat.not_lt_zero i))
    (fun i hi hil => absurd (lt_of_lt_of_le hil hi) (lt_irrefl _))
  unfold get_all_sub_nodes
  cases hres : rustBinarySearch (keys.length + 1) keys search_root 0 keys.length with
  | inl m =>
    rw [hres] at hspec
    obtain ⟨hm, heq⟩ := hspec
    simp only []
    refine scan_eq_filter search_root keys m hs ?_ ?_
    · intro i his hilen
      rw [← heq]
      exact pairwise_pathLtB_getD hs his hm
    · intro x hx
      obtain ⟨j, hj, hxj⟩ := List.mem_iff_getElem.mp hx
      rw [List.getElem_drop] at hxj
      have hjlen : m + j < keys.length := by
        have h3 := hj
        rw [List.length_drop] at h3
        omega
      have hgd : keys.getD (m + j) [] = x := by
        rw [List.getD_eq_getElem keys [] hjlen]
        exact hxj
      rcases Nat.eq_zero_or_pos j with hj0 | hjpos
      · have hxroot : x = search_root := by
          rw [← hgd, ← heq]
          congr 1
          omega
        rw [hxroot]
        exact pathLtB_irrefl _
      · have hlt : pathLtB search_root x = true := by
          rw [← heq, ← hgd]
          exact pairwise_pathLtB_getD hs (by omega) hjlen
        exact pathLtB_asymm hlt
  | inr p =>
    rw [hres] at hspec
    obtain ⟨hA, hB⟩ := hspec
    simp only []
    refine scan_eq_filter search_root keys p hs (fun i his _ => hA i his) ?_
    intro x hx
    obtain ⟨j, hj, hxj⟩ := List.mem_iff_getElem.mp hx
    rw [List.getElem_drop] at hxj
    have hjlen : p + j < keys.length := by
      have h3 := hj
      rw [List.length_drop] at h3
      omega
    have hgd : keys.getD (p + j) [] = x := by
      rw [List.getD_eq_getElem keys [] hjlen]
      exact hxj
    have hlt : pathLtB search_root x = true := by
      rw [← hgd]
      exact hB (p + j) (by omega) hjlen
    exact pathLtB_asymm hlt

/-- C7 witness: the concrete sorted key list of the example. -/
theorem c7_witness :
    diffInitialDeleted (some exKeys) ["src"] =
      exKeys.filter (fun k => (["src"] : List String).isPrefixOf k) ∧
    diffInitialDeleted none ["src"] = [] :=
  c7_diff_initial_deleted exKeys ["src"] (by decide)


/-! # C3 : index serialize/parse round trip -/

/-- The unpadded 62-byte-plus-path prefix of an entry serialization. -/
theorem indexEntry_ret_length (e : IndexEntry) (h20 : e.hash.bytes.length = 20) :
    (u32_to_bytes e.ctime ++ u32_to_bytes e.ctime_nano ++ u32_to_bytes e.mtime ++
     u32_to_bytes e.mtime_nano ++ u32_to_bytes e.dev ++ u32_to_bytes e.inode ++
     u32_to_bytes e.mode ++ u32_to_bytes e.uid ++ u32_to_bytes e.gid ++
     u32_to_bytes e.size ++ e.hash.bytes ++ u16_to_bytes e.flags ++ e.file_name).length
    = 62 + e.file_name.length := by
  simp [u32_to_bytes, u16_to_bytes, h20]
  omega

/-- The serialized entry length is `(pos/8 + 1) * 8` for `pos = 62 + |path|`. -/
theorem indexEntry_to_bytes_length (e : IndexEntry) (h20 : e.hash.bytes.length = 20) :
    e.to_bytes.length = ((62 + e.file_name.length) / 8 + 1) * 8 := by
  unfold IndexEntry.to_bytes
  rw [List.length_append, List.length_replicate, indexEntry_ret_length e h20]
  by_cases h8 : (62 + e.file_name.length) % 8 = 0
  · rw [if_pos h8]
    omega
  · rw [if_neg h8]
    omega

/-- Parsing one serialized entry from the front of a longer byte string
recovers the entry and consumes exactly its serialization. -/
theorem indexEntry_parse_append (e : IndexEntry) (rest : List Nat) (hwf : e.WF) :
    IndexEntry.«from» (e.to_bytes ++ rest) = some (e, e.to_bytes.length) := by
  obtain ⟨h1, h2, h3, h4, h5, h6, h7, h8, h9, h10, h20, hflags, hnz, hdec⟩ := hwf
  -- canonical right-associated form of the input
  have hform : e.to_bytes ++ rest =
      u32_to_bytes e.ctime ++ (u32_to_bytes e.ctime_nano ++ (u32_to_bytes e.mtime ++
      (u32_to_bytes e.mtime_nano ++ (u32_to_bytes e.dev ++ (u32_to_bytes e.inode ++
      (u32_to_bytes e.mode ++ (u32_to_bytes e.uid ++ (u32_to_bytes e.gid ++
      (u32_to_bytes e.size ++ (e.hash.bytes ++ (u16_to_bytes e.flags ++
      (e.file_name ++ ((if (62 + e.file_name.length) % 8 = 0 then List.replicate 8 0
          else List.replicate (8 - (62 + e.file_name.length) % 8) 0) ++ rest))))))))))))) := by
    simp only [IndexEntry.to_bytes]
    rw [indexEntry_ret_length e h20]
    simp [List.append_assoc]
    split <;> rfl
  obtain ⟨m, hm⟩ : ∃ m, (if (62 + e.file_name.length) % 8 = 0 then List.replicate 8 0
      else List.replicate (8 - (62 + e.file_name.length) % 8) 0) = 0 :: List.replicate m 0 := by
    by_cases hc : (62 + e.file_name.length) % 8 = 0
    · exact ⟨7, by rw [if_pos hc]; rfl⟩
    · refine ⟨8 - (62 + e.file_name.length) % 8 - 1, ?_⟩
      rw [if_neg hc]
      nth_rewrite 1 [show 8 - (62 + e.file_name.length) % 8 =
        (8 - (62 + e.file_name.length) % 8 - 1) + 1 from by omega]
      rw [List.replicate_succ]
  rw [hm] at hform
  have take4_u32 : ∀ (v : Nat) (t : List Nat), (u32_to_bytes v ++ t).take 4 = u32_to_bytes v :=
    fun v t => List.take_left' rfl
  have drop4_u32 : ∀ (v : Nat) (t : List Nat), (u32_to_bytes v ++ t).drop 4 = t :=
    fun v t => List.drop_left' rfl
  have hd4 : (e.to_bytes ++ rest).drop 4 =
      (u32_to_bytes e.ctime_nano ++ (u32_to_bytes e.mtime ++ (u32_to_bytes e.mtime_nano ++ (u32_to_bytes e.dev ++ (u32_to_bytes e.inode ++ (u32_to_bytes e.mode ++ (u32_to_bytes e.uid ++ (u32_to_bytes e.gid ++ (u32_to_bytes e.size ++ (e.hash.bytes ++ (u16_to_bytes e.flags ++ (e.file_name ++ ((0 :: List.replicate m 0) ++ rest))))))))))))) :=
    by rw [hform, drop4_u32]
  have hd8 : (e.to_bytes ++ rest).drop 8 =
      (u32_to_bytes e.mtime ++ (u32_to_bytes e.mtime_nano ++ (u32_to_bytes e.dev ++ (u32_to_bytes e.inode ++ (u32_to_bytes e.mode ++ (u32_to_bytes e.uid ++ (u32_to_bytes e.gid ++ (u32_to_bytes e.size ++ (e.hash.bytes ++ (u16_to_bytes e.flags ++ (e.file_name ++ ((0 :: List.replicate m 0) ++ rest)))))))))))) :=
    by rw [show (8 : Nat) = 4 + 4 from rfl, ← List.drop_drop, hd4, drop4_u32]
  have hd12 : (e.to_bytes ++ rest).drop 12 =
      (u32_to_bytes e.mtime_nano ++ (u32_to_bytes e.dev ++ (u32_to_bytes e.inode ++ (u32_to_bytes e.mode ++ (u32_to_bytes e.uid ++ (u32_to_bytes e.gid ++ (u32_to_bytes e.size ++ (e.hash.bytes ++ (u16_to_bytes e.flags ++ (e.file_name ++ ((0 :: List.replicate m 0) ++ rest))))))))))) :=
    by rw [show (12 : Nat) = 8 + 4 from rfl, ← List.drop_drop, hd8, drop4_u32]
  have hd16 : (e.to_bytes ++ rest).drop 16 =
      (u32_to_bytes e.dev ++ (u32_to_bytes e.inode ++ (u32_to_bytes e.mode ++ (u32_to_bytes e.uid ++ (u32_to_bytes e.gid ++ (u32_to_bytes e.size ++ (e.hash.bytes ++ (u16_to_bytes e.flags ++ (e.file_name ++ ((0 :: List.replicate m 0) ++ rest)))))))))) :=
    by rw [show (16 : Nat) = 12 + 4 from rfl, ← List.drop_drop, hd12, drop4_u32]
  have hd20 : (e.to_bytes ++ rest).drop 20 =
      (u32_to_bytes e.inode ++ (u32_to_bytes e.mode ++ (u32_to_bytes e.uid ++ (u32_to_bytes e.gid ++ (u32_to_bytes e.size ++ (e.hash.bytes ++ (u16_to_bytes e.flags ++ (e.file_name ++ ((0 :: List.replicate m 0) ++ rest))))))))) :=
    by rw [show (20 : Nat) = 16 + 4 from rfl, ← List.drop_drop, hd16, drop4_u32]
  have hd24 : (e.to_bytes ++ rest).drop 24 =
      (u32_to_bytes e.mode ++ (u32_to_bytes e.uid ++ (u32_to_bytes e.gid ++ (u32_to_bytes e.size ++ (e.hash.bytes ++ (u16_to_bytes e.flags ++ (e.file_name ++ ((0 :: List.replicate m 0) ++ rest)))))))) :=
    by rw [show (24 : Nat) = 20 + 4 from rfl, ← List.drop_drop, hd20, drop4_u32]
  have hd28 : (e.to_bytes ++ rest).drop 28 =
      (u32_to_bytes e.uid ++ (u32_to_bytes e.gid ++ (u32_to_bytes e.size ++ (e.hash.bytes ++ (u16_to_bytes e.flags ++ (e.file_name ++ ((0 :: List.replicate m 0) ++ rest))))))) :=
    by rw [show (28 : Nat) = 24 + 4 from rfl, ← List.drop_drop, hd24, drop4_u32]
  have hd32 : (e.to_bytes ++ rest).drop 32 =
      (u32_to_bytes e.gid ++ (u32_to_bytes e.size ++ (e.hash.bytes ++ (u16_to_bytes e.flags ++ (e.file_name ++ ((0 :: List.replicate m 0) ++ rest)))))) :=
    by rw [show (32 : Nat) = 28 + 4 from rfl, ← List.drop_drop, hd28, drop4_u32]
  have hd36 : (e.to_bytes ++ rest).drop 36 =
      (u32_to_bytes e.size ++ (e.hash.bytes ++ (u16_to_bytes e.flags ++ (e.file_name ++ ((0 :: List.replicate m 0) ++ rest))))) :=
    by rw [show (36 : Nat) = 32 + 4 from rfl, ← List.drop_drop, hd32, drop4_u32]
  have hd40 : (e.to_bytes ++ rest).drop 40 =
      (e.hash.bytes ++ (u16_to_bytes e.flags ++ (e.file_name ++ ((0 :: List.replicate m 0) ++ rest)))) :=
    by rw [show (40 : Nat) = 36 + 4 from rfl, ← List.drop_drop, hd36, drop4_u32]
  have hd60 : (e.to_bytes ++ rest).drop 60 =
      (u16_to_bytes e.flags ++ (e.file_name ++ ((0 :: List.replicate m 0) ++ rest))) :=
    by rw [show (60 : Nat) = 40 + 20 from rfl, ← List.drop_drop, hd40, List.drop_left' h20]
  have hd62 : (e.to_bytes ++ rest).drop 62 =
      (e.file_name ++ ((0 :: List.replicate m 0) ++ rest)) :=
    by rw [show (62 : Nat) = 60 + 2 from rfl, ← List.drop_drop, hd60, List.drop_left' (show (u16_to_bytes e.flags).length = 2 from rfl)]
  have hhash : Hash.«from» e.hash.bytes = some e.hash := by
    simp [Hash.«from», h20]
  obtain ⟨cs, hcs⟩ := Option.isSome_iff_exists.mp hdec
  simp only [IndexEntry.«from»]
  rw [hd4, hd8, hd12, hd16, hd20, hd24, hd28, hd32, hd36, hd40, hd60, hd62,
    List.drop_zero, hform]
  rw [take4_u32, take4_u32, take4_u32, take4_u32, take4_u32, take4_u32, take4_u32,
    take4_u32, take4_u32, take4_u32, List.take_left' h20,
    List.take_left' (show (u16_to_bytes e.flags).length = 2 from rfl)]
  rw [bytes_to_u32_u32_to_bytes h1, bytes_to_u32_u32_to_bytes h2,
    bytes_to_u32_u32_to_bytes h3, bytes_to_u32_u32_to_bytes h4,
    bytes_to_u32_u32_to_bytes h5, bytes_to_u32_u32_to_bytes h6,
    bytes_to_u32_u32_to_bytes h7, bytes_to_u32_u32_to_bytes h8,
    bytes_to_u32_u32_to_bytes h9, bytes_to_u32_u32_to_bytes h10,
    hhash, bytes_to_u16_u16_to_bytes hflags]
  simp only [Option.some_bind]
  rw [List.cons_append,
    extract_until_null_append e.file_name (List.replicate m 0 ++ rest) hnz, hcs]
  simp only [Option.some_bind]
  rw [indexEntry_to_bytes_length e h20]

theorem indexEntry_to_bytes_ne_nil (e : IndexEntry) : e.to_bytes ≠ [] := by
  intro h
  have hl := congrArg List.length h
  simp only [IndexEntry.to_bytes, List.length_append, List.length_replicate,
    List.length_nil] at hl
  revert hl
  split <;> omega

theorem mapInsert_append (k : List Nat) (v : IndexEntry) :
    ∀ (l : List (List Nat × IndexEntry)), (∀ p ∈ l, lexLtN p.1 k = true) →
      mapInsert k v l = l ++ [(k, v)]
  | [], _ => rfl
  | (k1, v1) :: t, h => by
    have h1 : lexLtN k1 k = true := h (k1, v1) (by simp)
    have h2 : lexLtN k k1 = false := lexLtBy_asymm natLt_asymm _ _ h1
    have h3 : k ≠ k1 := by
      intro he
      subst he
      rw [h1] at h2
      exact Bool.noConfusion h2
    rw [mapInsert]
    rw [if_neg (by simp [lexLtN] at h2 ⊢; exact h2), if_neg h3,
      mapInsert_append k v t (fun p hp => h p (by simp [hp]))]
    simp

theorem entries_flatten_length :
    ∀ es : List (List Nat × IndexEntry),
      es.length ≤ ((es.map fun p => p.2.to_bytes).flatten).length
  | [] => by simp
  | p :: t => by
    have h1 : 0 < p.2.to_bytes.length :=
      List.length_pos.mpr (indexEntry_to_bytes_ne_nil p.2)
    have h2 := entries_flatten_length t
    simp only [List.map_cons, List.flatten_cons, List.length_cons, List.length_append]
    omega

theorem indexEntriesLoop_concat :
    ∀ (es : List (List Nat × IndexEntry)) (fuel : Nat) (acc : List (List Nat × IndexEntry))
      (N : Nat),
      N = acc.length + es.length →
      (∀ p ∈ es, p.1 = p.2.file_name ∧ p.2.WF) →
      (∀ a ∈ acc, ∀ b ∈ es, lexLtN a.1 b.1 = true) →
      List.Pairwise (fun a b => lexLtN a.1 b.1 = true) es →
      es.length ≤ fuel →
      indexEntriesLoop fuel ((es.map fun p => p.2.to_bytes).flatten) N acc = some (acc ++ es)
  | [], fuel, acc, N, hN, _, _, _, _ => by
    cases fuel <;> simp [indexEntriesLoop]
  | p :: es, fuel + 1, acc, N, hN, hwf, hsort, hpw, hfuel => by
    have hkey : p.1 = p.2.file_name := (hwf p (by simp)).1
    have hpwf : p.2.WF := (hwf p (by simp)).2
    have hne : p.2.to_bytes ++ ((es.map fun q => q.2.to_bytes).flatten) ≠ [] := fun hh =>
      indexEntry_to_bytes_ne_nil p.2 (List.append_eq_nil.mp hh).1
    have hcnt : acc.length < N := by simp [List.length_cons] at hN; omega
    rw [List.map_cons, List.flatten_cons, indexEntriesLoop, if_pos ⟨hne, hcnt⟩,
      indexEntry_parse_append p.2 _ hpwf]
    simp only [Option.some_bind]
    rw [List.drop_left]
    have hins : mapInsert p.2.file_name p.2 acc = acc ++ [(p.2.file_name, p.2)] :=
      mapInsert_append p.2.file_name p.2 acc (fun a ha => by
        have := hsort a ha p (by simp)
        rwa [hkey] at this)
    rw [hins]
    have hp : (p.2.file_name, p.2) = p := by rw [← hkey]
    rw [hp]
    rw [indexEntriesLoop_concat es fuel (acc ++ [p]) N
      (by simp [List.length_append] at hN ⊢; omega)
      (fun q hq => hwf q (by simp [hq]))
      (fun a ha b hb => by
        rcases List.mem_append.mp ha with h | h
        · exact hsort a h b (by simp [hb])
        · have : a = p := by simpa using h
          subst this
          exact (List.pairwise_cons.mp hpw).1 b hb)
      (List.pairwise_cons.mp hpw).2
      (by simp at hfuel; omega)]
    rw [List.append_assoc, List.singleton_append]

/-- C3 : serializing a well-formed version-2 index and parsing it back is the
identity. -/
theorem c3_index_round_trip (I : Index) (h : I.WF) :
    Index.«from» I.to_bytes = some I := by
  obtain ⟨hver, hnum, hlt32, hpw, hwf⟩ := h
  have hassoc : I.to_bytes = strBytes "DIRC" ++ (u32_to_bytes I.version ++
      (u32_to_bytes I.entry_num ++ (I.entries.map fun e => e.2.to_bytes).flatten)) := by
    simp [Index.to_bytes, List.append_assoc]
  have hpre : (strBytes "DIRC").isPrefixOf I.to_bytes = true := by
    rw [hassoc]
    exact isPrefixOf_append_self _ _
  have hd4 : I.to_bytes.drop 4 = u32_to_bytes I.version ++
      (u32_to_bytes I.entry_num ++ (I.entries.map fun e => e.2.to_bytes).flatten) := by
    rw [hassoc]
    exact List.drop_left' rfl
  have hd8 : I.to_bytes.drop 8 =
      u32_to_bytes I.entry_num ++ (I.entries.map fun e => e.2.to_bytes).flatten := by
    rw [show (8 : Nat) = 4 + 4 from rfl, ← List.drop_drop, hd4]
    exact List.drop_left' rfl
  have hd12 : I.to_bytes.drop 12 = (I.entries.map fun e => e.2.to_bytes).flatten := by
    rw [show (12 : Nat) = 8 + 4 from rfl, ← List.drop_drop, hd8]
    exact List.drop_left' rfl
  have hfuel : I.entries.length ≤ I.to_bytes.length := by
    have h1 := entries_flatten_length I.entries
    have h2 : I.to_bytes.length =
        12 + ((I.entries.map fun e => e.2.to_bytes).flatten).length := by
      rw [hassoc]
      simp only [List.length_append]
      have hD : (strBytes "DIRC").length = 4 := rfl
      simp only [hD, u32_to_bytes, List.length_cons, List.length_nil]
      omega
    omega
  have hloop := indexEntriesLoop_concat I.entries I.to_bytes.length [] I.entry_num
    (by simp [hnum]) hwf (by simp) hpw hfuel
  rw [Index.«from», if_neg (by simp [hpre]), hd4, hd8, hd12,
    List.take_left' (show (u32_to_bytes I.version).length = 4 from rfl),
    List.take_left' (show (u32_to_bytes I.entry_num).length = 4 from rfl),
    bytes_to_u32_u32_to_bytes (show I.version < 4294967296 from by omega),
    bytes_to_u32_u32_to_bytes (show I.entry_num < 4294967296 from by omega)]
  simp only [Option.some_bind]
  rw [hloop]
  simp only [Option.some_bind, List.nil_append]

/-- Witness: the concrete two-entry index is well-formed and round-trips. -/
theorem c3_witness :
    Index.WF exIndex ∧ Index.«from» exIndex.to_bytes = some exIndex :=
  ⟨by unfold Index.WF IndexEntry.WF; decide,
   c3_index_round_trip exIndex (by unfold Index.WF IndexEntry.WF; decide)⟩

/-! # C8 : entry_num tracks the entry count through mutations -/

theorem applyOp_entry_num (i : Index) (op : IndexOp) :
    (i.applyOp op).entry_num = (i.applyOp op).entries.length % 4294967296 := by
  cases op <;> rfl

theorem mapInsert_length_le (k : List Nat) (v : IndexEntry) :
    ∀ l, (mapInsert k v l).length ≤ l.length + 1
  | [] => by simp [mapInsert]
  | (k1, v1) :: t => by
    unfold mapInsert
    split
    · simp
    · split
      · simp
      · simpa using Nat.succ_le_succ (mapInsert_length_le k v t)

theorem mapRemove_length_le (k : List Nat) :
    ∀ l, (mapRemove k l).length ≤ l.length
  | [] => by simp [mapRemove]
  | (k1, v1) :: t => by
    unfold mapRemove
    split
    · simp
    · simpa using Nat.succ_le_succ (mapRemove_length_le k t)

theorem applyOp_length_le (i : Index) (op : IndexOp) :
    (i.applyOp op).entries.length ≤ i.entries.length + 1 := by
  cases op with
  | add ie => exact mapInsert_length_le _ _ _
  | del p => exact le_trans (mapRemove_length_le _ _) (by omega)

theorem foldl_applyOp_length_le :
    ∀ (ops : List IndexOp) (i : Index),
      (ops.foldl Index.applyOp i).entries.length ≤ i.entries.length + ops.length
  | [], i => by simp
  | op :: t, i => by
    have h1 := foldl_applyOp_length_le t (i.applyOp op)
    have h2 := applyOp_length_le i op
    simpa [List.foldl_cons] using le_trans h1 (by omega)

theorem foldl_applyOp_entry_num :
    ∀ (ops : List IndexOp) (i : Index),
      i.entry_num = i.entries.length % 4294967296 →
      (ops.foldl Index.applyOp i).entry_num =
        (ops.foldl Index.applyOp i).entries.length % 4294967296
  | [], i, h => h
  | op :: t, i, _ => by
    simpa [List.foldl_cons] using
      foldl_applyOp_entry_num t (i.applyOp op) (applyOp_entry_num i op)

/-- C8: starting from `Index::new`, after any sequence of `add_entry` /
`delete_entry` mutations (any sequence a 64-bit process can perform, i.e.
fewer than `2^32` operations), the stored `entry_num` equals the number of
entries in the map. -/
theorem c8_entry_num_invariant (ops : List IndexOp) (h : ops.length < 4294967296) :
    (ops.foldl Index.applyOp Index.new).entry_num =
      (ops.foldl Index.applyOp Index.new).entries.length := by
  have hlen : (ops.foldl Index.applyOp Index.new).entries.length ≤ ops.length := by
    simpa [Index.new] using foldl_applyOp_length_le ops Index.new
  rw [foldl_applyOp_entry_num ops Index.new rfl]
  exact Nat.mod_eq_of_lt (lt_of_le_of_lt hlen h)

/-- C8 witness: an add followed by a delete, starting from `Index::new`. -/
theorem c8_witness :
    ([IndexOp.add exEntry, IndexOp.del (strBytes "a.txt")].foldl Index.applyOp
        Index.new).entry_num =
      ([IndexOp.add exEntry, IndexOp.del (strBytes "a.txt")].foldl Index.applyOp
        Index.new).entries.length :=
  c8_entry_num_invariant _ (by decide)

end Mugit
